import Mathlib

/-!
# Shorten (SHN) header reader: `taglib/shn/shnfile.cpp`

A shallow embedding of the Golomb-Rice bit reader (`VariableLengthInput`) and of
`SHN::File::read`, followed by theorems about them.

Conventions of the embedding.

* A byte is a `Fin 256`; a `ByteVector` and the unread part of the file are lists of bytes.
* `uint32_t` / `unsigned int` values are natural numbers kept below `2 ^ 32`; every operation
  that can leave that range is written with an explicit `% 2 ^ 32`.
* The `int32_t result` of `getRiceGolombCode` is carried as its two's-complement bit pattern
  (a natural number below `2 ^ 32`) and converted with `toInt32` where the code stores it.
* A shift whose count is negative or not less than the width of the shifted operand has no
  defined result in C++; the embedding reports it as `Res.undef` instead of choosing one.
* Loops whose trip count depends on the input carry a fuel argument; running out of fuel is
  reported as `Res.timeout`, and the theorems show that the fuel supplied is never used up.
-/

namespace SHN

/-- One byte of a `ByteVector` or of the input stream. -/
abbrev Byte := Fin 256

/-! ## Constants (lines 42-68) -/

def minSupportedVersion : Nat := 1
def maxSupportedVersion : Nat := 3
def defaultBlockSize : Nat := 256
def channelCountCodeSize : Int := 0
def functionCodeSize : Int := 2
def functionVerbatim : Int := 9
def verbatimChunkSizeCodeSize : Int := 5
def verbatimByteCodeSize : Int := 8
def verbatimChunkMaxSize : Int := 256
def uInt32CodeSize : Int := 2
def skipBytesCodeSize : Int := 1
def lpcqCodeSize : Int := 2
def extraByteCodeSize : Int := 7
def fileTypeCodeSize : Int := 4
def maxChannelCount : Nat := 8
def maxBlocksize : Nat := 65535
def canonicalHeaderSize : Int := 44
def waveFormatPCMTag : Nat := 0x0001
def kBufferSize : Nat := 512

/-- The table `VariableLengthInput::sMaskTable` (33 entries). -/
def sMaskTable : List Nat :=
  [0x0,
   0x1,        0x3,        0x7,        0xf,
   0x1f,       0x3f,       0x7f,       0xff,
   0x1ff,      0x3ff,      0x7ff,      0xfff,
   0x1fff,     0x3fff,     0x7fff,     0xffff,
   0x1ffff,    0x3ffff,    0x7ffff,    0xfffff,
   0x1fffff,   0x3fffff,   0x7fffff,   0xffffff,
   0x1ffffff,  0x3ffffff,  0x7ffffff,  0xfffffff,
   0x1fffffff, 0x3fffffff, 0x7fffffff, 0xffffffff]

/-! ## Library primitives used by the file -/

/-- Modelled from the spec: the `ByteVector` integer conversions `toUInt`, `toUShort` and
`toULongLong` (`tbytevector.cpp` is not among the sources). The spec describes every field as a
big-endian or little-endian unsigned integer of 2, 4 or 8 bytes; `toNumber v offset length msb`
combines the `length` bytes of `v` from `offset` in that byte order. A read that reaches past
the end of `v` combines only the bytes that exist, and gives `0` when there are none. -/
def toNumber (v : List Byte) (offset length : Nat) (msbFirst : Bool) : Nat :=
  let bytes := (v.drop offset).take length
  if msbFirst then bytes.foldl (fun acc b => acc * 256 + b.val) 0
  else bytes.foldr (fun b acc => b.val + 256 * acc) 0

/-- The call `v.toUInt(offset, mostSignificantByteFirst)`. -/
def toUInt (v : List Byte) (offset : Nat) (msbFirst : Bool) : Nat := toNumber v offset 4 msbFirst

/-- The call `v.toUShort(offset, mostSignificantByteFirst)`. -/
def toUShort (v : List Byte) (offset : Nat) (msbFirst : Bool) : Nat := toNumber v offset 2 msbFirst

/-- The call `v.toULongLong(offset, mostSignificantByteFirst)`. -/
def toULongLong (v : List Byte) (offset : Nat) (msbFirst : Bool) : Nat :=
  toNumber v offset 8 msbFirst

/-- Modelled from the spec: `File::readBlock(n)` (the byte-stream collaborator of §6, not among
the sources): "a sequential `readBlock(n)` operation returning up to `n` bytes, short reads
permitted only at end-of-data". The file is the list of its unread bytes; the result is the
block and the file after it. -/
def readBlock (file : List Byte) (n : Nat) : List Byte × List Byte := (file.take n, file.drop n)

/-- Value of a 32-bit pattern read as `int32_t`. -/
def toInt32 (p : Nat) : Int :=
  if p % 2 ^ 32 < 2 ^ 31 then ((p % 2 ^ 32 : Nat) : Int) else ((p % 2 ^ 32 : Nat) : Int) - 2 ^ 32

/-- Value of an `int32_t` converted to `uint32_t`. -/
def toUInt32 (i : Int) : Nat := (i % 2 ^ 32).toNat

/-! ## `VariableLengthInput` (lines 73-177) -/

/-- The members of `VariableLengthInput`; `file` is the unread part of the input stream. -/
structure VariableLengthInput where
  file : List Byte
  buffer : List Byte
  bufferPosition : Nat
  bitBuffer : Nat
  bitsAvailable : Nat
deriving DecidableEq

/-- The constructor `VariableLengthInput(File *file)`. -/
def VariableLengthInput.fresh (file : List Byte) : VariableLengthInput :=
  { file := file, buffer := [], bufferPosition := 0, bitBuffer := 0, bitsAvailable := 0 }

/-- Outcome of a reader call: `ok v s` is `return true` with the output parameter set to `v`,
`fail s` is `return false`, `undef` is a shift with an out-of-range count, `timeout` is the
embedding running out of fuel. -/
inductive Res (α : Type) where
  | ok (value : α) (next : VariableLengthInput)
  | fail (next : VariableLengthInput)
  | undef
  | timeout
deriving DecidableEq

/-- Post-processing of the value of a successful call. -/
def Res.map {α β : Type} (f : α → β) : Res α → Res β
  | .ok v s => .ok (f v) s
  | .fail s => .fail s
  | .undef => .undef
  | .timeout => .timeout

/-- The tail of `refillBitBuffer`: load one big-endian word from `buffer` (lines 171-175). -/
def loadWord (s : VariableLengthInput) : Bool × VariableLengthInput :=
  (true, { s with bitBuffer := toUInt s.buffer s.bufferPosition true,
                  bufferPosition := (s.bufferPosition + 4) % 2 ^ 32,
                  bitsAvailable := 32 })

/-- `VariableLengthInput::refillBitBuffer` (lines 161-176). -/
def refillBitBuffer (s : VariableLengthInput) : Bool × VariableLengthInput :=
  if (s.buffer.length + 2 ^ 32 - s.bufferPosition) % 2 ^ 32 < 4 then
    let block := (readBlock s.file kBufferSize).1
    let s1 := { s with file := (readBlock s.file kBufferSize).2 }
    if block.length < 4 then (false, s1)
    else loadWord { s1 with buffer := block, bufferPosition := 0 }
  else loadWord s

/-- The unary loop of `getRiceGolombCode` (lines 112-115), entered at its condition with the
current `result`. The condition tests bit `--bitsAvailable` of `bitBuffer` with `1L << n`; the
shift of the 64-bit `1L` is undefined when `bitsAvailable` was 0 (count -1) or above 64. -/
def unaryLoop : Nat → VariableLengthInput → Nat → Res Nat
  | 0, _, _ => .timeout
  | fuel + 1, s, result =>
    if s.bitsAvailable = 0 ∨ s.bitsAvailable > 64 then .undef
    else
      let s1 := { s with bitsAvailable := s.bitsAvailable - 1 }
      if s1.bitBuffer &&& (1 <<< s1.bitsAvailable) ≠ 0 then .ok result s1
      else if s1.bitsAvailable = 0 then
        match refillBitBuffer s1 with
        | (false, s2) => .fail s2
        | (true, s2) => unaryLoop fuel s2 ((result + 1) % 2 ^ 32)
      else unaryLoop fuel s1 ((result + 1) % 2 ^ 32)

/-- The remainder loop of `getRiceGolombCode` (lines 117-129), entered at its condition. The
shifts `result << k` and `result << bitsAvailable` are on the 32-bit `result`: a count that is
negative or at least 32 is undefined. Every pass that loops back has refilled the buffer, so
the third pass is never reached without such a shift; the fuel passed by the caller is 3. -/
def remainderLoop : Nat → VariableLengthInput → Int → Nat → Res Nat
  | 0, _, _, _ => .timeout
  | fuel + 1, s, k, result =>
    if k = 0 then .ok result s
    else if (s.bitsAvailable : Int) ≥ k then
      if k < 0 ∨ k ≥ 32 then .undef
      else
        .ok (((result <<< k.toNat) % 2 ^ 32) |||
              ((s.bitBuffer >>> (s.bitsAvailable - k.toNat)) &&& sMaskTable.getD k.toNat 0))
            { s with bitsAvailable := s.bitsAvailable - k.toNat }
    else
      if s.bitsAvailable ≥ 32 then .undef
      else
        let result1 := ((result <<< s.bitsAvailable) % 2 ^ 32) |||
          (s.bitBuffer &&& sMaskTable.getD s.bitsAvailable 0)
        match refillBitBuffer s with
        | (false, s2) => .fail s2
        | (true, s2) => remainderLoop fuel s2 (k - s.bitsAvailable) result1

/-- Fuel for the unary loop: one more than the number of bits the reader can still obtain. -/
def unaryFuel (s : VariableLengthInput) : Nat :=
  s.bitsAvailable + 8 * (s.buffer.length + s.file.length) + 1

/-- `VariableLengthInput::getRiceGolombCode(i32, k)` (lines 106-133). -/
def getRiceGolombCode (s : VariableLengthInput) (k : Int) : Res Int :=
  match (if s.bitsAvailable = 0 then refillBitBuffer s else (true, s)) with
  | (false, s1) => .fail s1
  | (true, s1) =>
    match unaryLoop (unaryFuel s1) s1 0 with
    | .ok result s2 => (remainderLoop 3 s2 k result).map toInt32
    | .fail s2 => .fail s2
    | .undef => .undef
    | .timeout => .timeout

/-- `VariableLengthInput::getUInt(ui32, version, k)` (lines 135-145). -/
def getUInt (s : VariableLengthInput) (version : Int) (k : Int) : Res Nat :=
  if version > 0 then
    match getRiceGolombCode s uInt32CodeSize with
    | .ok k1 s1 => (getRiceGolombCode s1 k1).map toUInt32
    | .fail s1 => .fail s1
    | .undef => .undef
    | .timeout => .timeout
  else (getRiceGolombCode s k).map toUInt32

/-! ## `SHN::File::read` (lines 251-536) -/

/-- Modelled from the spec: the struct `PropertyValues` (declared in `shnutils.h`, not among the
sources), the record of §3: "version, file type, channel count, sample rate, bits per sample,
sample frames". The casts in `read` fix the field types: `int` for all but `sampleFrames`, which
is `unsigned long`. `PropertyValues props{}` zero-initialises every field. -/
structure PropertyValues where
  version : Int := 0
  fileType : Int := 0
  channelCount : Int := 0
  sampleRate : Int := 0
  bitsPerSample : Int := 0
  sampleFrames : Nat := 0
deriving DecidableEq

/-- Value of a 16-bit pattern read as `int16_t`. -/
def toInt16 (p : Nat) : Int :=
  if p % 2 ^ 16 < 2 ^ 15 then ((p % 2 ^ 16 : Nat) : Int) else ((p % 2 ^ 16 : Nat) : Int) - 2 ^ 16

/-- Value of an `int32_t` converted to `uint8_t`. -/
def toUInt8 (i : Int) : Byte := Fin.ofNat (i % 256).toNat

/-- Outcome of a chunk walk: `done a` is falling out of the loop with variables `a`, `invalid`
is `setValid(false); return`, `timeout` is the embedding running out of fuel. -/
inductive Walk (α : Type) where
  | done (a : α)
  | invalid
  | timeout
deriving DecidableEq

/-- The variables of the RIFF/WAVE chunk walk (lines 373, 383-385) together with `props`. -/
structure WaveWalk where
  offset : Nat
  sawFormatChunk : Bool
  dataChunkSize : Nat
  blockAlign : Nat
  props : PropertyValues
deriving DecidableEq

/-- One pass through the body of the WAVE chunk loop (lines 388-436). The `switch` has the
cases `'fmt '` and `'data'` and no `default`. -/
def waveBody (chunkData : List Byte) (st : WaveWalk) : Walk WaveWalk :=
  let chunkID := toUInt chunkData st.offset true
  let offset := (st.offset + 4) % 2 ^ 32
  let chunkSize := toUInt chunkData offset false
  let offset := (offset + 4) % 2 ^ 32
  if chunkID = 0x666d7420 then
    if chunkSize < 16 then .invalid
    else
      let formatTag := toUShort chunkData offset false
      let offset := (offset + 2) % 2 ^ 32
      if formatTag ≠ waveFormatPCMTag then .invalid
      else
        -- `channelCount` is read and only compared for a debug message
        let offset := (offset + 2) % 2 ^ 32
        let sampleRate := toInt32 (toUInt chunkData offset false)
        let offset := (offset + 4) % 2 ^ 32
        -- skip average bytes per second
        let offset := (offset + 4) % 2 ^ 32
        let blockAlign := toUShort chunkData offset false
        let offset := (offset + 2) % 2 ^ 32
        let bitsPerSample := (toUShort chunkData offset false : Int)
        let offset := (offset + 2) % 2 ^ 32
        .done { offset := offset, sawFormatChunk := true, dataChunkSize := st.dataChunkSize,
                blockAlign := blockAlign,
                props := { st.props with sampleRate := sampleRate,
                                         bitsPerSample := bitsPerSample } }
  else if chunkID = 0x64617461 then
    .done { st with offset := offset, dataChunkSize := chunkSize }
  else .done { st with offset := offset }

/-- The loop `while(offset < chunkData.size())` of the WAVE branch (lines 387-437), entered at
its condition. -/
def waveLoop : Nat → List Byte → WaveWalk → Walk WaveWalk
  | 0, _, _ => .timeout
  | fuel + 1, chunkData, st =>
    if st.offset < chunkData.length then
      match waveBody chunkData st with
      | .done st1 => waveLoop fuel chunkData st1
      | .invalid => .invalid
      | .timeout => .timeout
    else .done st

/-- The WAVE branch (lines 372-447) on `chunkData`. -/
def parseWave (chunkData : List Byte) (props : PropertyValues) : Walk PropertyValues :=
  if toUInt chunkData 0 true ≠ 0x57415645 then .invalid
  else
    match waveLoop (chunkData.length + 1) chunkData
        { offset := 4, sawFormatChunk := false, dataChunkSize := 0, blockAlign := 0,
          props := props } with
    | .done st =>
      if !st.sawFormatChunk then .invalid
      else if st.dataChunkSize ≠ 0 ∧ st.blockAlign ≠ 0 then
        .done { st.props with sampleFrames := st.dataChunkSize / st.blockAlign }
      else .done st.props
    | .invalid => .invalid
    | .timeout => .timeout

/-- The variables of the FORM/AIFF chunk walk (lines 450, 463) together with `props`. -/
structure AiffWalk where
  offset : Nat
  sawCommonChunk : Bool
  props : PropertyValues
deriving DecidableEq

/-- The sample rate computed from the 80-bit extended float (lines 505-508): `exp` is the
exponent after the range check, `frac` the 64-bit mantissa; the shifts are on `uint64_t` and the
result is converted to `int`. -/
def extendedToInt (exp : Int) (frac : Nat) : Int :=
  if exp ≥ 0 then toInt32 ((frac <<< exp.toNat) % 2 ^ 64)
  else toInt32 (((frac + (1 <<< (-exp - 1).toNat) % 2 ^ 64) % 2 ^ 64) >>> (-exp).toNat)

/-- One pass through the body of the AIFF chunk loop (lines 465-519). -/
def aiffBody (chunkData : List Byte) (st : AiffWalk) : Walk AiffWalk :=
  let chunkID := toUInt chunkData st.offset true
  let offset := (st.offset + 4) % 2 ^ 32
  let chunkSize := toUInt chunkData offset true
  let offset := (offset + 4) % 2 ^ 32
  -- all chunks must have an even length but the pad byte is not included in ckSize
  let chunkSize := (chunkSize + (chunkSize &&& 1)) % 2 ^ 32
  if chunkID = 0x434f4d4d then
    if chunkSize < 18 then .invalid
    else
      -- `channelCount` is read and only compared for a debug message
      let offset := (offset + 2) % 2 ^ 32
      let sampleFrames := toUInt chunkData offset true
      let offset := (offset + 4) % 2 ^ 32
      let bitsPerSample := (toUShort chunkData offset true : Int)
      let offset := (offset + 2) % 2 ^ 32
      let exp : Int := toInt16 (toUShort chunkData offset true) - 16383 - 63
      let offset := (offset + 2) % 2 ^ 32
      if exp < -63 ∨ exp > 63 then .invalid
      else
        let frac := toULongLong chunkData offset true
        let offset := (offset + 8) % 2 ^ 32
        .done { offset := offset, sawCommonChunk := true,
                props := { st.props with sampleFrames := sampleFrames,
                                         bitsPerSample := bitsPerSample,
                                         sampleRate := extendedToInt exp frac } }
  else .done { st with offset := (offset + chunkSize) % 2 ^ 32 }

/-- The loop `while(offset < chunkData.size())` of the AIFF branch (lines 464-520), entered at
its condition. -/
def aiffLoop : Nat → List Byte → AiffWalk → Walk AiffWalk
  | 0, _, _ => .timeout
  | fuel + 1, chunkData, st =>
    if st.offset < chunkData.length then
      match aiffBody chunkData st with
      | .done st1 => aiffLoop fuel chunkData st1
      | .invalid => .invalid
      | .timeout => .timeout
    else .done st

/-- The AIFF branch (lines 449-527) on `chunkData`. A walk that ends visits every offset at most
once, so `chunkData.length + 1` iterations are enough for it. -/
def parseAiff (chunkData : List Byte) (props : PropertyValues) : Walk PropertyValues :=
  if toUInt chunkData 0 true ≠ 0x41494646 ∧ toUInt chunkData 0 true ≠ 0x41494643 then .invalid
  else
    match aiffLoop (chunkData.length + 1) chunkData
        { offset := 4, sawCommonChunk := false, props := props } with
    | .done st => if !st.sawCommonChunk then .invalid else .done st.props
    | .invalid => .invalid
    | .timeout => .timeout

/-- Container parsing (lines 366-532): the raw header is dispatched on its first four bytes. -/
def parseContainer (header : List Byte) (props : PropertyValues) : Walk PropertyValues :=
  let chunkID := toUInt header 0 true
  let chunkData := (header.drop 8).take ((header.length + 2 ^ 32 - 8) % 2 ^ 32)
  if chunkID = 0x52494646 then parseWave chunkData props
  else if chunkID = 0x464f524d then parseAiff chunkData props
  else .invalid

/-- The loop of lines 325-331: `n` further `getUInt` calls whose values are dropped. -/
def skipLoop : Nat → VariableLengthInput → Int → Res Unit
  | 0, s, _ => .ok () s
  | n + 1, s, version =>
    match getUInt s version extraByteCodeSize with
    | .ok _ s1 => skipLoop n s1 version
    | .fail s1 => .fail s1
    | .undef => .undef
    | .timeout => .timeout

/-- Sequencing of reader calls: continue with the value and state of a successful call. -/
def Res.bind {α β : Type} (r : Res α) (f : α → VariableLengthInput → Res β) : Res β :=
  match r with
  | .ok v s => f v s
  | .fail s => .fail s
  | .undef => .undef
  | .timeout => .timeout

/-- The stream-level fields (lines 278-332): file type, channel count and, for `version > 0`,
block size, maximum LPC order, mean count and the skipped bytes. `fail` is
`setValid(false); return`. -/
def readStreamInfo (s : VariableLengthInput) (version : Nat) (props : PropertyValues) :
    Res PropertyValues :=
  (getUInt s version fileTypeCodeSize).bind fun fileType s =>
  let props := { props with fileType := toInt32 fileType }
  (getUInt s version channelCountCodeSize).bind fun channelCount s =>
  if channelCount = 0 ∨ channelCount > maxChannelCount then .fail s
  else
    let props := { props with channelCount := toInt32 channelCount }
    if version > 0 then
      (getUInt s version (Nat.log2 defaultBlockSize)).bind fun blocksize s =>
      if blocksize = 0 ∨ blocksize > maxBlocksize then .fail s
      else
        (getUInt s version lpcqCodeSize).bind fun _ s =>
        (getUInt s version 0).bind fun _ s =>
        (getUInt s version skipBytesCodeSize).bind fun skipCount s =>
        (skipLoop skipCount s version).bind fun _ s => .ok props s
    else .ok props s

/-- The loop of lines 353-362: `n` further bytes of the header, each one a
`getRiceGolombCode(byte, verbatimByteCodeSize)` stored as `uint8_t`. -/
def readHeaderBytes : Nat → VariableLengthInput → List Byte → Res (List Byte)
  | 0, s, acc => .ok acc s
  | n + 1, s, acc =>
    match getRiceGolombCode s verbatimByteCodeSize with
    | .ok byte s1 => readHeaderBytes n s1 (acc ++ [toUInt8 byte])
    | .fail s1 => .fail s1
    | .undef => .undef
    | .timeout => .timeout

/-- The verbatim section (lines 336-362): function code, header size, header bytes. -/
def readVerbatim (s : VariableLengthInput) : Res (List Byte) :=
  (getRiceGolombCode s functionCodeSize).bind fun function s =>
  if function ≠ functionVerbatim then .fail s
  else
    (getRiceGolombCode s verbatimChunkSizeCodeSize).bind fun header_size s =>
    if header_size < canonicalHeaderSize ∨ header_size > verbatimChunkMaxSize then .fail s
    else readHeaderBytes header_size.toNat s []

/-- What `read` leaves behind: `valid props` is reaching lines 534-535 (tag and properties are
set), `invalid` is `setValid(false); return` (neither is set), `undef` and `timeout` are as for
`Res`. -/
inductive ReadResult where
  | valid (props : PropertyValues)
  | invalid
  | undef
  | timeout
deriving DecidableEq

/-- The result of `read` once the container has been parsed (lines 528-535). -/
def ReadResult.ofWalk : Walk PropertyValues → ReadResult
  | .done p => .valid p
  | .invalid => .invalid
  | .timeout => .timeout

/-- The end of `read` from the verbatim section on (lines 334-536). -/
def readFromVerbatim (s : VariableLengthInput) (props : PropertyValues) : ReadResult :=
  match readVerbatim s with
  | .ok header _ => ReadResult.ofWalk (parseContainer header props)
  | .fail _ => .invalid
  | .undef => .undef
  | .timeout => .timeout

/-- `SHN::File::read` (lines 251-536) on an open file with the given bytes. -/
def read (file : List Byte) : ReadResult :=
  let magic := (readBlock file 4).1
  let file := (readBlock file 4).2
  if magic ≠ [0x61, 0x6a, 0x6b, 0x67] then .invalid
  else
    let version := toUInt (readBlock file 1).1 0 true
    let file := (readBlock file 1).2
    if version < minSupportedVersion ∨ version > maxSupportedVersion then .invalid
    else
      match readStreamInfo (VariableLengthInput.fresh file) version { version := version } with
      | .ok props s => readFromVerbatim s props
      | .fail _ => .invalid
      | .undef => .undef
      | .timeout => .timeout

/-! ## Vocabulary for stating the reader's behaviour -/

/-- The `n` low bits of `x`, most significant first. -/
def bitsOf : Nat → Nat → List Bool
  | 0, _ => []
  | n + 1, x => x.testBit n :: bitsOf n x

/-- The complete big-endian 32-bit words of a byte sequence (up to three trailing bytes that do
not fill a word are left out). -/
def wordsOf : List Byte → List Nat
  | b0 :: b1 :: b2 :: b3 :: rest =>
    (((b0.val * 256 + b1.val) * 256 + b2.val) * 256 + b3.val) :: wordsOf rest
  | _ => []

/-- The bits of a sequence of 32-bit words, each word most significant bit first. -/
def bitsOfWords : List Nat → List Bool
  | [] => []
  | w :: ws => bitsOf 32 w ++ bitsOfWords ws

/-- The 32-bit words the reader can still load: those left in `buffer`, then those of the
unread file. -/
def VariableLengthInput.pendingWords (s : VariableLengthInput) : List Nat :=
  wordsOf (s.buffer.drop s.bufferPosition) ++ wordsOf s.file

/-- The unread bits of a reader: the `bitsAvailable` low bits of `bitBuffer`, then the bits of
the words still to be loaded. -/
def VariableLengthInput.unreadBits (s : VariableLengthInput) : List Bool :=
  bitsOf s.bitsAvailable s.bitBuffer ++ bitsOfWords s.pendingWords

/-- The states a reader can be in between calls: the position lies inside a buffer of at most
`kBufferSize` bytes and at most 32 bits are held. -/
structure VariableLengthInput.WellFormed (s : VariableLengthInput) : Prop where
  pos_le : s.bufferPosition ≤ s.buffer.length
  buf_le : s.buffer.length ≤ kBufferSize
  bits_le : s.bitsAvailable ≤ 32

/-- The Golomb-Rice code of `v` with parameter `k`: `v >>> k` zero bits, a one bit, then the `k`
low bits of `v`. -/
def riceCode (k v : Nat) : List Bool :=
  List.replicate (v >>> k) false ++ true :: bitsOf k v

/-- The reference encoder of an adaptive unsigned integer: for `version > 0` the code of the
chosen width `w` with parameter `uInt32CodeSize`, then the code of `v` with parameter `w`; for
version 0 the code of `v` with the default width `k`. -/
def encodeUInt (version k w v : Nat) : List Bool :=
  if version > 0 then riceCode 2 w ++ riceCode w v else riceCode k v

/-- The number a bit sequence denotes, most significant bit first. -/
def natOfBits (bs : List Bool) : Nat := bs.foldl (fun acc b => 2 * acc + b.toNat) 0

/-- The four bytes of a 32-bit word, most significant first. -/
def bytesOfWord (w : Nat) : List Byte :=
  [Fin.ofNat (w / 2 ^ 24), Fin.ofNat (w / 2 ^ 16), Fin.ofNat (w / 2 ^ 8), Fin.ofNat w]

/-- Pack `n` words of 32 bits each into bytes, filling up with zero bits. -/
def packWords : Nat → List Bool → List Byte
  | 0, _ => []
  | n + 1, bs =>
    bytesOfWord (natOfBits ((bs ++ List.replicate 32 false).take 32)) ++ packWords n (bs.drop 32)

/-- A bit sequence padded with zero bits to whole 32-bit words, as big-endian bytes. -/
def packBits (bs : List Bool) : List Byte := packWords ((bs.length + 31) / 32) bs

/-! ## Vocabulary for stating the container parser's behaviour -/

/-- A 16-bit field, least significant byte first. -/
def le16 (x : Nat) : List Byte := [Fin.ofNat x, Fin.ofNat (x / 2 ^ 8)]

/-- A 32-bit field, least significant byte first. -/
def le32 (x : Nat) : List Byte :=
  [Fin.ofNat x, Fin.ofNat (x / 2 ^ 8), Fin.ofNat (x / 2 ^ 16), Fin.ofNat (x / 2 ^ 24)]

/-- A 16-bit field, most significant byte first. -/
def be16 (x : Nat) : List Byte := [Fin.ofNat (x / 2 ^ 8), Fin.ofNat x]

/-- A 32-bit field, most significant byte first. -/
def be32 (x : Nat) : List Byte :=
  [Fin.ofNat (x / 2 ^ 24), Fin.ofNat (x / 2 ^ 16), Fin.ofNat (x / 2 ^ 8), Fin.ofNat x]

/-- A 64-bit field, most significant byte first. -/
def be64 (x : Nat) : List Byte :=
  [Fin.ofNat (x / 2 ^ 56), Fin.ofNat (x / 2 ^ 48), Fin.ofNat (x / 2 ^ 40), Fin.ofNat (x / 2 ^ 32),
   Fin.ofNat (x / 2 ^ 24), Fin.ofNat (x / 2 ^ 16), Fin.ofNat (x / 2 ^ 8), Fin.ofNat x]

/-- The number a byte sequence denotes, least significant byte first. -/
def leValue (bs : List Byte) : Nat := bs.foldr (fun b acc => b.val + 256 * acc) 0

/-- The number a byte sequence denotes, most significant byte first. -/
def beValue (bs : List Byte) : Nat := bs.foldl (fun acc b => acc * 256 + b.val) 0

/-- The canonical 44-byte WAVE header: `'RIFF'` size `'WAVE'`, a 16-byte PCM `'fmt '` chunk and
the header of the `'data'` chunk. -/
def waveHeader (riffSize channels sampleRate byteRate blockAlign bitsPerSample dataSize : Nat) :
    List Byte :=
  [0x52, 0x49, 0x46, 0x46] ++ le32 riffSize ++ [0x57, 0x41, 0x56, 0x45] ++
  [0x66, 0x6d, 0x74, 0x20] ++ le32 16 ++ le16 1 ++ le16 channels ++ le32 sampleRate ++
  le32 byteRate ++ le16 blockAlign ++ le16 bitsPerSample ++
  [0x64, 0x61, 0x74, 0x61] ++ le32 dataSize

/-- A WAVE header in which a chunk `id` with the given payload precedes the `'fmt '` chunk, and
whose `'data'` chunk header is followed by `tail`. -/
def waveHeaderWithChunk (id payload : List Byte) (channels sampleRate byteRate blockAlign
    bitsPerSample dataSize : Nat) (tail : List Byte) : List Byte :=
  [0x52, 0x49, 0x46, 0x46] ++ le32 (36 + 8 + payload.length + tail.length) ++
  [0x57, 0x41, 0x56, 0x45] ++ id ++ le32 payload.length ++ payload ++
  [0x66, 0x6d, 0x74, 0x20] ++ le32 16 ++ le16 1 ++ le16 channels ++ le32 sampleRate ++
  le32 byteRate ++ le16 blockAlign ++ le16 bitsPerSample ++
  [0x64, 0x61, 0x74, 0x61] ++ le32 dataSize ++ tail

/-- A `'COMM'` chunk with declared size `commSize` and the 18 bytes of the common chunk. -/
def commChunk (commSize channels sampleFrames bitsPerSample exponent mantissa : Nat) :
    List Byte :=
  [0x43, 0x4f, 0x4d, 0x4d] ++ be32 commSize ++ be16 channels ++ be32 sampleFrames ++
  be16 bitsPerSample ++ be16 exponent ++ be64 mantissa

/-- The canonical 54-byte AIFF header: `'FORM'` size `'AIFF'`, the `'COMM'` chunk and the
header of the `'SSND'` chunk with its offset and block-size fields. -/
def aiffHeader (formSize commSize channels sampleFrames bitsPerSample exponent mantissa
    ssndSize : Nat) : List Byte :=
  [0x46, 0x4f, 0x52, 0x4d] ++ be32 formSize ++ [0x41, 0x49, 0x46, 0x46] ++
  commChunk commSize channels sampleFrames bitsPerSample exponent mantissa ++
  [0x53, 0x53, 0x4e, 0x44] ++ be32 ssndSize ++ be32 0 ++ be32 0

/-- A Shorten file: magic, version byte, then the bit stream of the stream-level fields
(file type, channel count, block size, maximum LPC order, mean count, no skipped bytes) and of
the verbatim section carrying `header`, every adaptive integer with width `w`. -/
def shnFile (version w fileType channels blocksize : Nat) (header : List Byte) : List Byte :=
  [0x61, 0x6a, 0x6b, 0x67, Fin.ofNat version] ++
  packBits (encodeUInt version 0 w fileType ++ encodeUInt version 0 w channels ++
    encodeUInt version 0 w blocksize ++ encodeUInt version 0 w 0 ++ encodeUInt version 0 w 0 ++
    encodeUInt version 0 w 0 ++ riceCode 2 9 ++ riceCode 5 header.length ++
    (header.map (fun b => riceCode 8 b.val)).foldr (fun c acc => c ++ acc) [])

/-! ## Vocabulary for stating the behaviour of `read` -/

/-- A reader call that returned true or false and left a well-formed state. -/
def Res.Settled {α : Type} (r : Res α) : Prop :=
  (∃ v s', r = .ok v s' ∧ s'.WellFormed) ∨ (∃ s', r = .fail s' ∧ s'.WellFormed)

/-- The version byte of a file (its fifth byte, as `read` decodes it). -/
def versionOf (file : List Byte) : Nat := toUInt ((file.drop 4).take 1) 0 true

/-- The bit stream of a file: what follows the magic number and the version byte. -/
def streamOf (file : List Byte) : List Byte := (file.drop 4).drop 1

/-- The stream-level channel count of a file: the value of the second `getUInt` call of `read`,
when the first two calls return true. -/
def streamChannelCount (file : List Byte) : Option Nat :=
  match getUInt (VariableLengthInput.fresh (streamOf file)) (versionOf file) fileTypeCodeSize with
  | .ok _ s1 =>
    match getUInt s1 (versionOf file) channelCountCodeSize with
    | .ok channelCount _ => some channelCount
    | _ => none
  | _ => none

/-- The fields of a record that come from the stream-level part of the file. -/
def SameStreamFields (p q : PropertyValues) : Prop :=
  p.version = q.version ∧ p.fileType = q.fileType ∧ p.channelCount = q.channelCount

/-- The canonical WAVE header of a 44.1 kHz, 16-bit stereo recording of one second. -/
def sampleHeader : List Byte := waveHeader 36 2 44100 176400 4 16 176400

/-- A version-2 Shorten file with two channels carrying `sampleHeader`. -/
def sampleFile : List Byte := shnFile 2 4 5 2 256 sampleHeader

/-- The same file with a stream-level channel count of nine. -/
def sampleFileNineChannels : List Byte := shnFile 2 4 5 9 256 sampleHeader

/-! ## Vocabulary for the state of the file object, the reader invariant and further headers -/

/-- A 44-byte AIFF header whose first chunk, `'JUNK'`, declares the size `0xFFFFFFF8`. -/
def loopingAiffHeader : List Byte :=
  [0x46, 0x4f, 0x52, 0x4d] ++ be32 36 ++ [0x41, 0x49, 0x46, 0x46] ++
  [0x4a, 0x55, 0x4e, 0x4b] ++ be32 0xFFFFFFF8 ++ List.replicate 24 0

/-- A 54-byte AIFF header whose `'COMM'` chunk (with the given channel count and the sample
frame count `0x4d4d0012`) is followed by a `'JUNK'` chunk that declares the size
`0xFFFFFFE6`. -/
def aliasAiffHeader (channels : Nat) : List Byte :=
  [0x46, 0x4f, 0x52, 0x4d] ++ be32 46 ++ [0x41, 0x49, 0x46, 0x46] ++
  commChunk 18 channels 0x4d4d0012 16 16398 (44100 * 2 ^ 48) ++
  [0x4a, 0x55, 0x4e, 0x4b] ++ be32 0xFFFFFFE6 ++ be32 0 ++ be32 0

/-- An AIFF header in which a chunk `id` of declared size `declared`, with its payload and pad
byte, precedes the `'COMM'` chunk and the header of the `'SSND'` chunk. -/
def aiffHeaderWithChunk (id : List Byte) (declared : Nat) (payload : List Byte)
    (channels sampleFrames bitsPerSample exponent mantissa ssndSize : Nat) : List Byte :=
  [0x46, 0x4f, 0x52, 0x4d] ++ be32 (46 + 8 + payload.length) ++ [0x41, 0x49, 0x46, 0x46] ++
  id ++ be32 declared ++ payload ++
  commChunk 18 channels sampleFrames bitsPerSample exponent mantissa ++
  [0x53, 0x53, 0x4e, 0x44] ++ be32 ssndSize ++ be32 0 ++ be32 0

/-- A file whose stream starts with the adaptive width 64: sixteen zero bits, a one bit and
the two remainder bits `00`, then a one bit. -/
def wideWidthFile : List Byte := [0x61, 0x6a, 0x6b, 0x67, 1, 0, 0, 0x90, 0, 0, 0, 0, 0]

/-- A version-2 file whose stream holds the width 52 (thirteen zero bits, a one bit and the
bits `00`), the terminator of the value's code and 47 further bits. -/
def truncatedWideFile : List Byte :=
  [0x61, 0x6a, 0x6b, 0x67, 2, 0x00, 0x04, 0x80, 0x00, 0, 0, 0, 0]

/-! ## Bits and words -/

theorem bitsOf_length (n x : Nat) : (bitsOf n x).length = n := by
  induction n with
  | zero => rfl
  | succ n ih => simp [bitsOf, ih]

theorem bitsOf_split (m n x : Nat) : bitsOf (m + n) x = bitsOf m (x >>> n) ++ bitsOf n x := by
  induction m with
  | zero => simp [bitsOf]
  | succ m ih =>
    have h : m + 1 + n = (m + n) + 1 := by omega
    rw [h, bitsOf, bitsOf, ih, Nat.testBit_shiftRight, Nat.add_comm n m]
    rfl

theorem bitsOf_testBit {k a b : Nat} (h : bitsOf k a = bitsOf k b) :
    ∀ i, i < k → a.testBit i = b.testBit i := by
  induction k with
  | zero => intro i hi; omega
  | succ k ih =>
    simp only [bitsOf, List.cons.injEq] at h
    intro i hi
    rcases Nat.lt_succ_iff_lt_or_eq.mp hi with h1 | h1
    · exact ih h.2 i h1
    · rw [h1]; exact h.1

theorem bitsOf_mod_eq {k a b : Nat} (h : bitsOf k a = bitsOf k b) : a % 2 ^ k = b % 2 ^ k := by
  apply Nat.eq_of_testBit_eq
  intro i
  simp only [Nat.testBit_mod_two_pow]
  by_cases hi : i < k
  · simp [hi, bitsOf_testBit h i hi]
  · simp [hi]

theorem bitsOf_mod (k a : Nat) : bitsOf k (a % 2 ^ k) = bitsOf k a := by
  have key : ∀ n, n ≤ k → bitsOf n (a % 2 ^ k) = bitsOf n a := by
    intro n
    induction n with
    | zero => intro _; rfl
    | succ n ih =>
      intro hn
      simp only [bitsOf, Nat.testBit_mod_two_pow, ih (by omega)]
      have : n < k := by omega
      simp [this]
  exact key k (Nat.le_refl k)

theorem and_one_shiftLeft_ne_zero (x n : Nat) : (x &&& (1 <<< n) ≠ 0) ↔ x.testBit n = true := by
  rw [Nat.shiftLeft_eq, Nat.one_mul]
  constructor
  · intro h
    by_contra hb
    apply h
    apply Nat.eq_of_testBit_eq
    intro i
    simp only [Nat.testBit_and, Nat.zero_testBit, Nat.testBit_two_pow]
    by_cases hi : n = i
    · subst hi; simp [hb]
    · simp [hi]
  · intro h h0
    have := congrArg (fun y => Nat.testBit y n) h0
    simp [Nat.testBit_two_pow_self, h] at this

theorem sMaskTable_eq (k : Nat) (hk : k ≤ 32) : sMaskTable.getD k 0 = 2 ^ k - 1 := by
  interval_cases k <;> rfl

/-! ## Refilling the bit buffer -/

theorem wordsOf_short {l : List Byte} (h : l.length < 4) : wordsOf l = [] := by
  match l, h with
  | [], _ => rfl
  | [_], _ => rfl
  | [_, _], _ => rfl
  | [_, _, _], _ => rfl
  | _ :: _ :: _ :: _ :: _, h => simp at h; omega

theorem wordsOf_long {l : List Byte} (h : 4 ≤ l.length) :
    wordsOf l = toUInt l 0 true :: wordsOf (l.drop 4) := by
  match l, h with
  | b0 :: b1 :: b2 :: b3 :: rest, _ =>
    simp [wordsOf, toUInt, toNumber]
  | [], h => simp at h
  | [_], h => simp at h
  | [_, _], h => simp at h
  | [_, _, _], h => simp at h

theorem wordsOf_take_drop (m : Nat) (l : List Byte) :
    wordsOf l = wordsOf (l.take (4 * m)) ++ wordsOf (l.drop (4 * m)) := by
  induction m generalizing l with
  | zero => simp [wordsOf]
  | succ m ih =>
    by_cases h : l.length < 4
    · have h1 : l.take (4 * (m + 1)) = l := List.take_of_length_le (by omega)
      have h2 : l.drop (4 * (m + 1)) = [] := List.drop_of_length_le (by omega)
      rw [h1, h2]; simp [wordsOf]
    · match l, h with
      | b0 :: b1 :: b2 :: b3 :: rest, _ =>
        have e : 4 * (m + 1) = 4 * m + 1 + 1 + 1 + 1 := by omega
        rw [e]
        simp only [List.take_succ_cons, List.drop_succ_cons, wordsOf, List.cons_append]
        rw [← ih rest]
      | [], h => simp at h
      | [_], h => simp at h
      | [_, _], h => simp at h
      | [_, _, _], h => simp at h

theorem toUInt_drop (l : List Byte) (p : Nat) : toUInt l p true = toUInt (l.drop p) 0 true := by
  simp [toUInt, toNumber]

theorem refill_nil (s : VariableLengthInput) (hs : s.WellFormed) (hp : s.pendingWords = []) :
    refillBitBuffer s = (false, { s with file := s.file.drop kBufferSize }) := by
  obtain ⟨h1, h2, h3⟩ := hs
  simp only [VariableLengthInput.pendingWords, List.append_eq_nil] at hp
  obtain ⟨hb, hf⟩ := hp
  have hlen : s.buffer.length - s.bufferPosition < 4 := by
    by_contra hc
    have : 4 ≤ (s.buffer.drop s.bufferPosition).length := by simp; omega
    rw [wordsOf_long this] at hb
    cases hb
  have hflen : s.file.length < 4 := by
    by_contra hc
    rw [wordsOf_long (by omega)] at hf
    cases hf
  simp only [kBufferSize] at h2
  have c1 : (s.buffer.length + 2 ^ 32 - s.bufferPosition) % 2 ^ 32 < 4 := by omega
  have c2 : (s.file.take kBufferSize).length < 4 := by simp; omega
  simp only [refillBitBuffer, readBlock, if_pos c1, if_pos c2]

theorem refill_cons (s : VariableLengthInput) (hs : s.WellFormed) {w : Nat} {ws : List Nat}
    (hp : s.pendingWords = w :: ws) :
    ∃ s', refillBitBuffer s = (true, s') ∧ s'.bitBuffer = w ∧ s'.bitsAvailable = 32 ∧
      s'.pendingWords = ws ∧ s'.WellFormed := by
  obtain ⟨h1, h2, h3⟩ := hs
  simp only [kBufferSize] at h2
  simp only [VariableLengthInput.pendingWords] at hp
  by_cases hlen : s.buffer.length - s.bufferPosition < 4
  · have c1 : (s.buffer.length + 2 ^ 32 - s.bufferPosition) % 2 ^ 32 < 4 := by omega
    have hb : wordsOf (s.buffer.drop s.bufferPosition) = [] := wordsOf_short (by simp; omega)
    rw [hb, List.nil_append] at hp
    have hflen : 4 ≤ s.file.length := by
      by_contra hc
      rw [wordsOf_short (by omega)] at hp
      cases hp
    have htl : 4 ≤ (s.file.take kBufferSize).length := by simp [kBufferSize]; omega
    have c2 : ¬ (s.file.take kBufferSize).length < 4 := by omega
    have key := wordsOf_take_drop 128 s.file
    rw [hp, show 4 * 128 = kBufferSize from rfl, wordsOf_long htl] at key
    simp only [List.cons_append, List.cons.injEq] at key
    simp only [refillBitBuffer, readBlock, loadWord, if_pos c1, if_neg c2]
    refine ⟨_, rfl, key.1.symm, rfl, ?_, ?_⟩
    · simpa [VariableLengthInput.pendingWords] using key.2.symm
    · constructor
      · simp only [List.length_take] at htl ⊢; omega
      · simp [kBufferSize]
      · simp
  · have c1 : ¬ (s.buffer.length + 2 ^ 32 - s.bufferPosition) % 2 ^ 32 < 4 := by omega
    have hbl : 4 ≤ (s.buffer.drop s.bufferPosition).length := by simp; omega
    rw [wordsOf_long hbl] at hp
    simp only [List.cons_append, List.cons.injEq] at hp
    simp only [refillBitBuffer, loadWord, if_neg c1]
    refine ⟨_, rfl, ?_, rfl, ?_, ?_⟩
    · simpa [toUInt_drop] using hp.1
    · have e : (s.bufferPosition + 4) % 2 ^ 32 = s.bufferPosition + 4 := by omega
      simp only [VariableLengthInput.pendingWords, e]
      rw [← hp.2, List.drop_drop]
    · constructor
      · simp only; omega
      · simpa [kBufferSize] using h2
      · simp

/-! ## The unary part of a code -/

theorem bitsOfWords_length (ws : List Nat) : (bitsOfWords ws).length = 32 * ws.length := by
  induction ws with
  | nil => rfl
  | cons w ws ih => simp [bitsOfWords, bitsOf_length, ih]; omega

theorem wordsOf_length_le (n : Nat) : ∀ l : List Byte, l.length ≤ n → 4 * (wordsOf l).length ≤ l.length := by
  induction n using Nat.strong_induction_on with
  | _ n ih =>
    intro l hl
    by_cases h : l.length < 4
    · simp [wordsOf_short h]
    · rw [wordsOf_long (by omega)]
      have := ih (n - 4) (by omega) (l.drop 4) (by simp; omega)
      simp only [List.length_cons, List.length_drop] at this ⊢
      omega

theorem unreadBits_length_lt (s : VariableLengthInput) : s.unreadBits.length < unaryFuel s := by
  have h1 := wordsOf_length_le _ (s.buffer.drop s.bufferPosition) (Nat.le_refl _)
  have h2 := wordsOf_length_le _ s.file (Nat.le_refl _)
  simp only [List.length_drop] at h1
  simp only [VariableLengthInput.unreadBits, VariableLengthInput.pendingWords, unaryFuel,
    List.length_append, bitsOf_length, bitsOfWords_length]
  omega

theorem unreadBits_pred (s : VariableLengthInput) (h : 1 ≤ s.bitsAvailable) :
    s.unreadBits = s.bitBuffer.testBit (s.bitsAvailable - 1) ::
      ({ s with bitsAvailable := s.bitsAvailable - 1 } : VariableLengthInput).unreadBits := by
  obtain ⟨n, hn⟩ : ∃ n, s.bitsAvailable = n + 1 := ⟨s.bitsAvailable - 1, by omega⟩
  simp only [VariableLengthInput.unreadBits, VariableLengthInput.pendingWords, hn, bitsOf,
    Nat.add_sub_cancel, List.cons_append]

theorem refill_bits (s : VariableLengthInput) (hs : s.WellFormed) (h0 : s.bitsAvailable = 0)
    (hne : s.unreadBits ≠ []) :
    ∃ s', refillBitBuffer s = (true, s') ∧ s'.WellFormed ∧ s'.bitsAvailable = 32 ∧
      s'.unreadBits = s.unreadBits := by
  have hu : s.unreadBits = bitsOfWords s.pendingWords := by
    simp [VariableLengthInput.unreadBits, h0, bitsOf]
  cases hp : s.pendingWords with
  | nil => rw [hu, hp] at hne; exact absurd rfl hne
  | cons w ws =>
    obtain ⟨s', h1, h2, h3, h4, h5⟩ := refill_cons s hs hp
    refine ⟨s', h1, h5, h3, ?_⟩
    rw [hu, hp]
    simp only [VariableLengthInput.unreadBits, h2, h3, h4, bitsOfWords]

theorem wellFormed_setBits (s : VariableLengthInput) (hs : s.WellFormed) (n : Nat) (hn : n ≤ 32) :
    ({ s with bitsAvailable := n } : VariableLengthInput).WellFormed :=
  ⟨hs.pos_le, hs.buf_le, hn⟩

theorem unaryLoop_spec (q : Nat) : ∀ (fuel : Nat) (s : VariableLengthInput) (result : Nat)
    (rest : List Bool), s.WellFormed → 1 ≤ s.bitsAvailable → q < fuel → result + q < 2 ^ 32 →
    s.unreadBits = List.replicate q false ++ true :: rest →
    ∃ s', unaryLoop fuel s result = .ok (result + q) s' ∧ s'.WellFormed ∧
      s'.bitsAvailable ≤ 31 ∧ s'.unreadBits = rest := by
  induction q with
  | zero =>
    intro fuel s result rest hs hb hf _ hbits
    obtain ⟨f, rfl⟩ : ∃ f, fuel = f + 1 := ⟨fuel - 1, by omega⟩
    have hle := hs.bits_le
    rw [unreadBits_pred s hb] at hbits
    simp only [List.replicate, List.nil_append, List.cons.injEq] at hbits
    have c1 : ¬ (s.bitsAvailable = 0 ∨ s.bitsAvailable > 64) := by omega
    have c2 : s.bitBuffer &&& (1 <<< (s.bitsAvailable - 1)) ≠ 0 :=
      (and_one_shiftLeft_ne_zero _ _).mpr hbits.1
    simp only [unaryLoop, if_neg c1, if_pos c2]
    exact ⟨_, rfl, wellFormed_setBits s hs _ (by omega), by simp only; omega, hbits.2⟩
  | succ q ih =>
    intro fuel s result rest hs hb hf hr hbits
    obtain ⟨f, rfl⟩ : ∃ f, fuel = f + 1 := ⟨fuel - 1, by omega⟩
    have hle := hs.bits_le
    rw [unreadBits_pred s hb] at hbits
    simp only [List.replicate, List.cons_append, List.cons.injEq] at hbits
    have c1 : ¬ (s.bitsAvailable = 0 ∨ s.bitsAvailable > 64) := by omega
    have c2 : ¬ (s.bitBuffer &&& (1 <<< (s.bitsAvailable - 1)) ≠ 0) := by
      rw [and_one_shiftLeft_ne_zero, hbits.1]; simp
    have hr1 : (result + 1) % 2 ^ 32 = result + 1 := Nat.mod_eq_of_lt (by omega)
    have hs1 := wellFormed_setBits s hs (s.bitsAvailable - 1) (by omega)
    simp only [unaryLoop, if_neg c1, if_neg c2, hr1]
    by_cases c3 : s.bitsAvailable - 1 = 0
    · simp only [if_pos c3]
      obtain ⟨s2, e1, e2, e3, e4⟩ := refill_bits _ hs1 c3 (by rw [hbits.2]; simp)
      rw [e1]
      simp only
      obtain ⟨s', g1, g2, g3, g4⟩ := ih f s2 (result + 1) rest e2 (by omega) (by omega) (by omega)
        (by rw [e4, hbits.2])
      exact ⟨s', by rw [g1]; congr 1; omega, g2, g3, g4⟩
    · simp only [if_neg c3]
      obtain ⟨s', g1, g2, g3, g4⟩ := ih f _ (result + 1) rest hs1 (by simp only; omega) (by omega)
        (by omega) hbits.2
      exact ⟨s', by rw [g1]; congr 1; omega, g2, g3, g4⟩

/-! ## The remainder part of a code -/

theorem shift_or_eq (result k x : Nat) (hx : x < 2 ^ k) (hr : result * 2 ^ k < 2 ^ 32) :
    ((result <<< k) % 2 ^ 32) ||| x = result * 2 ^ k + x := by
  rw [Nat.shiftLeft_eq, Nat.mod_eq_of_lt hr, Nat.mul_comm, Nat.mul_add_lt_is_or hx]

/-- One pass through the `bitsAvailable >= k` branch. -/
theorem remainderLoop_fits (fuel : Nat) (s : VariableLengthInput) (k r result : Nat)
    (rest : List Bool) (hs : s.WellFormed) (hk1 : 1 ≤ k) (hk : k ≤ s.bitsAvailable)
    (hk31 : k ≤ 31) (hv : result * 2 ^ k + r % 2 ^ k < 2 ^ 32)
    (hbits : s.unreadBits = bitsOf k r ++ rest) :
    ∃ s', remainderLoop (fuel + 1) s (k : Int) result = .ok (result * 2 ^ k + r % 2 ^ k) s' ∧
      s'.WellFormed ∧ s'.bitsAvailable = s.bitsAvailable - k ∧ s'.unreadBits = rest := by
  have hle := hs.bits_le
  have c1 : ¬ ((k : Int) = 0) := by omega
  have c2 : ((s.bitsAvailable : Int) ≥ (k : Int)) := by omega
  have c3 : ¬ ((k : Int) < 0 ∨ (k : Int) ≥ 32) := by omega
  have hsplit : bitsOf s.bitsAvailable s.bitBuffer =
      bitsOf k (s.bitBuffer >>> (s.bitsAvailable - k)) ++ bitsOf (s.bitsAvailable - k) s.bitBuffer := by
    rw [← bitsOf_split]; congr 1; omega
  simp only [VariableLengthInput.unreadBits, hsplit, List.append_assoc] at hbits
  have hl := List.append_inj hbits (by simp [bitsOf_length])
  have hm := bitsOf_mod_eq hl.1
  have hx : (s.bitBuffer >>> (s.bitsAvailable - k)) &&& sMaskTable.getD k 0 = r % 2 ^ k := by
    rw [sMaskTable_eq k (by omega), Nat.and_pow_two_sub_one_eq_mod, hm]
  simp only [remainderLoop, if_neg c1, if_pos c2, if_neg c3, Int.toNat_ofNat, hx]
  refine ⟨_, ?_, wellFormed_setBits s hs _ (by omega), rfl, ?_⟩
  · rw [shift_or_eq _ _ _ (Nat.mod_lt _ (by positivity)) (by omega)]
  · simpa [VariableLengthInput.unreadBits, VariableLengthInput.pendingWords] using hl.2

theorem remainderLoop_spec (fuel : Nat) (s : VariableLengthInput) (k r result : Nat)
    (rest : List Bool) (hs : s.WellFormed) (hb : s.bitsAvailable ≤ 31)
    (hk : k ≤ s.bitsAvailable + 31) (hr : r < 2 ^ k) (hv : result * 2 ^ k + r < 2 ^ 32)
    (hbits : s.unreadBits = bitsOf k r ++ rest) :
    ∃ s', remainderLoop (fuel + 2) s (k : Int) result = .ok (result * 2 ^ k + r) s' ∧
      s'.WellFormed ∧ s'.unreadBits = rest := by
  by_cases hk0 : k = 0
  · subst hk0
    have : r = 0 := by simpa using hr
    subst this
    simp only [bitsOf, List.nil_append] at hbits
    exact ⟨s, by simp [remainderLoop], hs, hbits⟩
  by_cases hfit : k ≤ s.bitsAvailable
  · obtain ⟨s', h1, h2, _, h4⟩ := remainderLoop_fits (fuel + 1) s k r result rest hs (by omega) hfit
      (by omega) (by rw [Nat.mod_eq_of_lt hr]; exact hv) hbits
    rw [Nat.mod_eq_of_lt hr] at h1
    exact ⟨s', h1, h2, h4⟩
  · -- the code straddles a word boundary
    obtain ⟨b, hbdef⟩ : ∃ b, b = s.bitsAvailable := ⟨_, rfl⟩
    obtain ⟨j, hj⟩ : ∃ j, k = b + j := ⟨k - b, by omega⟩
    have hj1 : 1 ≤ j := by omega
    have hj31 : j ≤ 31 := by omega
    have c1 : ¬ ((k : Int) = 0) := by omega
    have c2 : ¬ ((s.bitsAvailable : Int) ≥ (k : Int)) := by omega
    have c3 : ¬ (s.bitsAvailable ≥ 32) := by omega
    have hsplit : bitsOf k r = bitsOf b (r >>> j) ++ bitsOf j r := by
      rw [hj, bitsOf_split]
    simp only [VariableLengthInput.unreadBits, hsplit, List.append_assoc] at hbits
    have hl := List.append_inj hbits (by simp [bitsOf_length, hbdef])
    rw [← hbdef] at hl
    have hm := bitsOf_mod_eq hl.1
    have hrj : r >>> j < 2 ^ b := by
      rw [Nat.shiftRight_eq_div_pow, Nat.div_lt_iff_lt_mul (by positivity), ← Nat.pow_add, ← hj]
      exact hr
    rw [Nat.mod_eq_of_lt hrj] at hm
    have hx : s.bitBuffer &&& sMaskTable.getD s.bitsAvailable 0 = r >>> j := by
      rw [sMaskTable_eq _ (by omega), Nat.and_pow_two_sub_one_eq_mod, ← hbdef, hm]
    have hdecomp : r = (r >>> j) * 2 ^ j + r % 2 ^ j := by
      rw [Nat.shiftRight_eq_div_pow, Nat.mul_comm]; exact (Nat.div_add_mod r (2 ^ j)).symm
    have hpow : 2 ^ k = 2 ^ b * 2 ^ j := by rw [hj, Nat.pow_add]
    have hjpos : 0 < 2 ^ j := by positivity
    have hres1 : result * 2 ^ b + r >>> j < 2 ^ 32 := by
      by_contra hc
      have : 2 ^ 32 * 2 ^ j ≤ (result * 2 ^ b + r >>> j) * 2 ^ j :=
        Nat.mul_le_mul_right _ (by omega)
      have e : (result * 2 ^ b + r >>> j) * 2 ^ j + r % 2 ^ j = result * 2 ^ k + r := by
        rw [hpow]; conv_rhs => rw [hdecomp]
        ring
      have : 2 ^ 32 * 1 ≤ 2 ^ 32 * 2 ^ j := Nat.mul_le_mul_left _ hjpos
      omega
    -- refill
    have hne : bitsOfWords s.pendingWords ≠ [] := by
      rw [hl.2]
      obtain ⟨j', rfl⟩ : ∃ j', j = j' + 1 := ⟨j - 1, by omega⟩
      simp [bitsOf]
    cases hp : s.pendingWords with
    | nil => rw [hp] at hne; exact absurd rfl hne
    | cons w ws =>
      obtain ⟨s2, e1, e2, e3, e4, e5⟩ := refill_cons s hs hp
      have hbits2 : s2.unreadBits = bitsOf j r ++ rest := by
        simp only [VariableLengthInput.unreadBits, e2, e3, e4]
        rw [← hl.2, hp]; rfl
      obtain ⟨s', g1, g2, _, g4⟩ := remainderLoop_fits fuel s2 j r (result * 2 ^ b + r >>> j) rest e5
        hj1 (by omega) hj31 (by
          have e : (result * 2 ^ b + r >>> j) * 2 ^ j + r % 2 ^ j = result * 2 ^ k + r := by
            rw [hpow]; conv_rhs => rw [hdecomp]
            ring
          omega) hbits2
      refine ⟨s', ?_, g2, g4⟩
      have hkj : (k : Int) - (s.bitsAvailable : Int) = (j : Int) := by omega
      have hsh : ((result <<< s.bitsAvailable) % 2 ^ 32) ||| r >>> j =
          result * 2 ^ b + r >>> j := by
        rw [← hbdef]
        exact shift_or_eq _ _ _ hrj (by omega)
      rw [remainderLoop]
      simp only [if_neg c1, if_neg c2, if_neg c3, hx, e1, hkj, hsh]
      rw [g1]
      congr 1
      rw [hpow]; conv_rhs => rw [hdecomp]
      ring

/-! ## Decoding one Golomb-Rice code -/

theorem unreadBits_length_mod (s : VariableLengthInput) (h : s.bitsAvailable ≤ 31) :
    s.bitsAvailable = s.unreadBits.length % 32 := by
  simp only [VariableLengthInput.unreadBits, List.length_append, bitsOf_length, bitsOfWords_length]
  omega

theorem shiftLeft_or_eq (q k r : Nat) (hr : r < 2 ^ k) : q <<< k ||| r = q * 2 ^ k + r := by
  rw [Nat.shiftLeft_eq, Nat.mul_comm, Nat.mul_add_lt_is_or hr]

theorem toInt32_of_lt (v : Nat) (h : v < 2 ^ 31) : toInt32 v = (v : Int) := by
  have h1 : v % 2 ^ 32 = v := Nat.mod_eq_of_lt (by omega)
  simp only [toInt32, h1, if_pos h]

/-- General form of the decoding lemma: the width may exceed 31 as long as the part of the
remainder left for the second word is shorter than 32 bits. -/
theorem getRiceGolombCode_decode (s : VariableLengthInput) (k q r : Nat) (rest : List Bool)
    (hs : s.WellFormed) (hk : k ≤ (k + rest.length) % 32 + 31) (hr : r < 2 ^ k)
    (hv : q * 2 ^ k + r < 2 ^ 31)
    (hbits : s.unreadBits = List.replicate q false ++ true :: (bitsOf k r ++ rest)) :
    ∃ s', getRiceGolombCode s (k : Int) = .ok ((q * 2 ^ k + r : Nat) : Int) s' ∧
      s'.WellFormed ∧ s'.unreadBits = rest := by
  -- the initial refill
  have hstart : ∃ s1, (if s.bitsAvailable = 0 then refillBitBuffer s else (true, s)) = (true, s1) ∧
      s1.WellFormed ∧ 1 ≤ s1.bitsAvailable ∧ s1.unreadBits = s.unreadBits := by
    by_cases h0 : s.bitsAvailable = 0
    · obtain ⟨s1, e1, e2, e3, e4⟩ := refill_bits s hs h0 (by rw [hbits]; simp)
      exact ⟨s1, by rw [if_pos h0, e1], e2, by omega, e4⟩
    · exact ⟨s, by rw [if_neg h0], hs, by omega, rfl⟩
  obtain ⟨s1, e1, e2, e3, e4⟩ := hstart
  have hq : q < unaryFuel s1 := by
    have := unreadBits_length_lt s1
    rw [e4, hbits] at this
    simp only [List.length_append, List.length_replicate, List.length_cons] at this
    omega
  have hpos : 0 < 2 ^ k := by positivity
  have hq32 : 0 + q < 2 ^ 32 := by
    have : q * 1 ≤ q * 2 ^ k := Nat.mul_le_mul_left _ hpos
    omega
  obtain ⟨s2, u1, u2, u3, u4⟩ := unaryLoop_spec q (unaryFuel s1) s1 0 (bitsOf k r ++ rest) e2 e3 hq
    hq32 (by rw [e4, hbits])
  have hb2 := unreadBits_length_mod s2 u3
  rw [u4] at hb2
  simp only [List.length_append, bitsOf_length] at hb2
  obtain ⟨s3, r1, r2, r3⟩ := remainderLoop_spec 1 s2 k r (0 + q) rest u2 u3 (by omega) hr
    (by rw [Nat.zero_add]; omega) u4
  refine ⟨s3, ?_, r2, r3⟩
  rw [Nat.zero_add] at u1 r1
  have r1' : remainderLoop 3 s2 (k : Int) q = Res.ok (q * 2 ^ k + r) s3 := r1
  simp only [getRiceGolombCode, e1, u1, r1', Res.map]
  rw [toInt32_of_lt _ hv]

/-! ## The reference encoder -/

theorem natOfBits_foldl (bs : List Bool) (acc : Nat) :
    bs.foldl (fun a b => 2 * a + b.toNat) acc = 2 ^ bs.length * acc + natOfBits bs := by
  induction bs generalizing acc with
  | nil => simp [natOfBits]
  | cons b bs ih =>
    simp only [List.foldl_cons, natOfBits, List.length_cons]
    rw [ih, ih (2 * 0 + b.toNat)]
    ring

theorem natOfBits_cons (b : Bool) (bs : List Bool) :
    natOfBits (b :: bs) = 2 ^ bs.length * b.toNat + natOfBits bs := by
  simp only [natOfBits, List.foldl_cons]
  rw [natOfBits_foldl]
  simp [natOfBits]

theorem natOfBits_lt (bs : List Bool) : natOfBits bs < 2 ^ bs.length := by
  induction bs with
  | nil => simp [natOfBits]
  | cons b bs ih =>
    rw [natOfBits_cons, List.length_cons, Nat.pow_succ]
    have : b.toNat ≤ 1 := by cases b <;> simp
    have : 2 ^ bs.length * b.toNat ≤ 2 ^ bs.length * 1 := Nat.mul_le_mul_left _ this
    omega

theorem bitsOf_natOfBits (bs : List Bool) : bitsOf bs.length (natOfBits bs) = bs := by
  induction bs with
  | nil => rfl
  | cons b bs ih =>
    rw [natOfBits_cons, List.length_cons, bitsOf]
    congr 1
    · rw [Nat.testBit_mul_pow_two_add _ (natOfBits_lt bs)]
      cases b <;> simp
    · rw [← bitsOf_mod, Nat.mul_add_mod, bitsOf_mod, ih]

theorem wordsOf_bytesOfWord (w : Nat) (hw : w < 2 ^ 32) (rest : List Byte) :
    wordsOf (bytesOfWord w ++ rest) = w :: wordsOf rest := by
  simp only [bytesOfWord, List.cons_append, List.nil_append, wordsOf, Fin.ofNat, List.cons.injEq]
  refine ⟨?_, rfl⟩
  omega

theorem bitsOfWords_packWords (n : Nat) : ∀ bs : List Bool, bs.length ≤ 32 * n →
    bitsOfWords (wordsOf (packWords n bs)) = bs ++ List.replicate (32 * n - bs.length) false := by
  induction n with
  | zero =>
    intro bs h
    have : bs = [] := List.length_eq_zero.mp (by omega)
    subst this; rfl
  | succ n ih =>
    intro bs h
    have hchunk : ((bs ++ List.replicate 32 false).take 32).length = 32 := by simp
    have hlt := natOfBits_lt ((bs ++ List.replicate 32 false).take 32)
    rw [hchunk] at hlt
    rw [packWords, wordsOf_bytesOfWord _ hlt, bitsOfWords, ih (bs.drop 32) (by simp; omega)]
    have hb := bitsOf_natOfBits ((bs ++ List.replicate 32 false).take 32)
    rw [hchunk] at hb
    rw [hb]
    by_cases hlen : 32 ≤ bs.length
    · rw [List.take_append_of_le_length hlen, ← List.append_assoc, List.take_append_drop]
      congr 2
      simp only [List.length_drop]; omega
    · have h1 : bs.drop 32 = [] := List.drop_of_length_le (by omega)
      rw [h1, List.take_append_eq_append_take, List.take_of_length_le (by omega : bs.length ≤ 32)]
      simp only [List.take_replicate, List.length_nil, List.nil_append, List.append_assoc,
        List.append_replicate_replicate]
      congr 2
      omega

theorem unreadBits_fresh (file : List Byte) :
    (VariableLengthInput.fresh file).unreadBits = bitsOfWords (wordsOf file) := by
  simp [VariableLengthInput.unreadBits, VariableLengthInput.pendingWords,
    VariableLengthInput.fresh, bitsOf, wordsOf]

theorem wellFormed_fresh (file : List Byte) : (VariableLengthInput.fresh file).WellFormed :=
  ⟨by simp [VariableLengthInput.fresh], by simp [VariableLengthInput.fresh],
   by simp [VariableLengthInput.fresh]⟩

theorem unreadBits_packBits (bs : List Bool) :
    (VariableLengthInput.fresh (packBits bs)).unreadBits =
      bs ++ List.replicate (32 * ((bs.length + 31) / 32) - bs.length) false := by
  rw [unreadBits_fresh, packBits, bitsOfWords_packWords _ _ (by omega)]

/-! ## Round trips of the reader -/

theorem toUInt32_natCast (v : Nat) (h : v < 2 ^ 32) : toUInt32 (v : Int) = v := by
  simp only [toUInt32]
  omega

theorem riceCode_eq (k v : Nat) (rest : List Bool) :
    riceCode k v ++ rest =
      List.replicate (v / 2 ^ k) false ++ true :: (bitsOf k (v % 2 ^ k) ++ rest) := by
  simp [riceCode, Nat.shiftRight_eq_div_pow, bitsOf_mod]

theorem div_mul_add_mod (v k : Nat) : v / 2 ^ k * 2 ^ k + v % 2 ^ k = v := by
  rw [Nat.mul_comm]; exact Nat.div_add_mod v (2 ^ k)

/-- Claim C2: `getRiceGolombCode` is the reference Golomb-Rice decoder. For a width `k` from 0
to 31, a well-formed reader state whose unread bits are `q` zero bits, a one bit, the `k` bits
of `r` (with `r < 2 ^ k` and `(q << k) | r < 2 ^ 31`) and then `rest`, the call returns true with
the value `(q << k) | r`, and the reader is left with exactly `rest` unread: it has consumed
`q + 1 + k` bits, wherever the word and block boundaries fall. -/
theorem getRiceGolombCode_reference (s : VariableLengthInput) (k q r : Nat) (rest : List Bool)
    (hs : s.WellFormed) (hk : k ≤ 31) (hr : r < 2 ^ k) (hv : q <<< k ||| r < 2 ^ 31)
    (hbits : s.unreadBits = List.replicate q false ++ true :: (bitsOf k r ++ rest)) :
    ∃ s', getRiceGolombCode s (k : Int) = .ok ((q <<< k ||| r : Nat) : Int) s' ∧
      s'.WellFormed ∧ s'.unreadBits = rest ∧
      s.unreadBits.length = q + 1 + k + s'.unreadBits.length := by
  rw [shiftLeft_or_eq q k r hr] at hv ⊢
  obtain ⟨s', h1, h2, h3⟩ := getRiceGolombCode_decode s k q r rest hs (by omega) hr hv hbits
  refine ⟨s', h1, h2, h3, ?_⟩
  rw [h3, hbits]
  simp only [List.length_append, List.length_replicate, List.length_cons, bitsOf_length]
  omega

/-- Claim C3: on a fresh reader over a file whose bits start with `n` zero bits and a one bit
(`n < 2 ^ 31`), `getRiceGolombCode` with `k = 0` returns true with the value `n`. -/
theorem getRiceGolombCode_unary (n : Nat) (file : List Byte) (rest : List Bool)
    (hn : n < 2 ^ 31)
    (hbits : (VariableLengthInput.fresh file).unreadBits = List.replicate n false ++ true :: rest) :
    ∃ s', getRiceGolombCode (VariableLengthInput.fresh file) 0 = .ok (n : Int) s' := by
  obtain ⟨s', h1, _, _⟩ := getRiceGolombCode_decode (VariableLengthInput.fresh file) 0 n 0 rest
    (wellFormed_fresh file) (by omega) (by simp) (by simpa using hn) (by simpa [bitsOf] using hbits)
  exact ⟨s', by simpa using h1⟩

theorem getUInt_of_zero (s : VariableLengthInput) (k : Int) :
    getUInt s 0 k = (getRiceGolombCode s k).map toUInt32 := by
  simp [getUInt]

theorem getUInt_of_pos (s s1 : VariableLengthInput) (version k k1 : Int) (h : version > 0)
    (h1 : getRiceGolombCode s 2 = .ok k1 s1) :
    getUInt s version k = (getRiceGolombCode s1 k1).map toUInt32 := by
  simp only [getUInt, if_pos h, uInt32CodeSize, h1]

/-- Adaptive-uint round trip below the widths at which the decoder shifts its 32-bit `result`
by 32. For every version from 0 to 3 and every value `v < 2 ^ 31`, `getUInt` on a fresh reader
over the output of the reference encoder, padded to whole 32-bit words, returns true with the
value `v` when the default width is `k ≤ 62` for version 0 and the chosen width is `w ≤ 47`
for the later versions. -/
theorem getUInt_roundtrip (version k w v : Nat) (hver : version ≤ 3) (hv : v < 2 ^ 31)
    (hk : version = 0 → k ≤ 62) (hw : 0 < version → w ≤ 47) :
    ∃ s', getUInt (VariableLengthInput.fresh (packBits (encodeUInt version k w v)))
      (version : Int) (k : Int) = .ok v s' := by
  have hbits := unreadBits_packBits (encodeUInt version k w v)
  obtain ⟨pad, hpad, hpe⟩ : ∃ pad : Nat, (encodeUInt version k w v).length + pad =
      32 * (((encodeUInt version k w v).length + 31) / 32) ∧
      32 * (((encodeUInt version k w v).length + 31) / 32) - (encodeUInt version k w v).length
        = pad := ⟨_, by omega, rfl⟩
  rw [hpe] at hbits
  have hmod : ((encodeUInt version k w v).length + pad) % 32 = 0 := by omega
  clear hpad hpe
  obtain ⟨file, hfile⟩ : ∃ file, file = packBits (encodeUInt version k w v) := ⟨_, rfl⟩
  rw [← hfile] at hbits ⊢
  clear hfile
  by_cases h0 : version = 0
  · subst h0
    have hk62 := hk rfl
    simp only [encodeUInt, gt_iff_lt, Nat.lt_irrefl, if_false] at hbits hmod
    rw [riceCode_eq] at hbits
    simp only [riceCode, List.length_append, List.length_replicate, List.length_cons,
      bitsOf_length, Nat.shiftRight_eq_div_pow] at hmod
    have hq : 32 ≤ k → v / 2 ^ k = 0 := by
      intro h
      apply Nat.div_eq_of_lt
      calc v < 2 ^ 31 := hv
        _ ≤ 2 ^ k := Nat.pow_le_pow_right (by omega) (by omega)
    obtain ⟨s', h1, _, _⟩ := getRiceGolombCode_decode _ k (v / 2 ^ k) (v % 2 ^ k) _
      (wellFormed_fresh _) (by
        simp only [List.length_replicate]
        by_cases h32 : 32 ≤ k
        · have := hq h32
          rw [this] at hmod
          omega
        · omega) (Nat.mod_lt _ (by positivity)) (by rw [div_mul_add_mod]; exact hv) hbits
    rw [div_mul_add_mod] at h1
    refine ⟨s', ?_⟩
    rw [Nat.cast_zero, getUInt_of_zero, h1, Res.map, toUInt32_natCast v (by omega)]
  · have hw47 := hw (by omega)
    have hc : ((version : Nat) : Int) > 0 := by omega
    have hvpos : version > 0 := by omega
    simp only [encodeUInt, if_pos hvpos] at hbits hmod
    rw [List.append_assoc, riceCode_eq] at hbits
    simp only [riceCode, List.length_append, List.length_replicate, List.length_cons,
      bitsOf_length, Nat.shiftRight_eq_div_pow] at hmod
    obtain ⟨s1, h1, h2, h3⟩ := getRiceGolombCode_decode _ 2 (w / 2 ^ 2) (w % 2 ^ 2) _
      (wellFormed_fresh _) (by omega) (Nat.mod_lt _ (by positivity))
      (by rw [div_mul_add_mod]; omega) hbits
    rw [div_mul_add_mod] at h1
    rw [riceCode_eq] at h3
    have hq : 32 ≤ w → v / 2 ^ w = 0 := by
      intro h
      apply Nat.div_eq_of_lt
      calc v < 2 ^ 31 := hv
        _ ≤ 2 ^ w := Nat.pow_le_pow_right (by omega) (by omega)
    obtain ⟨s', g1, _, _⟩ := getRiceGolombCode_decode s1 w (v / 2 ^ w) (v % 2 ^ w) _ h2 (by
        simp only [List.length_replicate]
        by_cases h32 : 32 ≤ w
        · have := hq h32
          rw [this] at hmod
          clear hbits h1 h3 hq this
          interval_cases w <;> simp only [Nat.reducePow, Nat.reduceDiv] at hmod <;> omega
        · omega) (Nat.mod_lt _ (by positivity)) (by rw [div_mul_add_mod]; exact hv) h3
    rw [div_mul_add_mod] at g1
    refine ⟨s', ?_⟩
    rw [getUInt_of_pos _ s1 _ _ (w : Int) hc h1, g1, Res.map, toUInt32_natCast v (by omega)]

/-- Witness for `getUInt_roundtrip`: version 2, chosen width 16, value 44100. -/
theorem getUInt_roundtrip_witness :
    ∃ s', getUInt (VariableLengthInput.fresh (packBits (encodeUInt 2 0 16 44100)))
      ((2 : Nat) : Int) ((0 : Nat) : Int) = .ok 44100 s' :=
  getUInt_roundtrip 2 0 16 44100 (by decide) (by decide) (by decide) (by decide)

/-- The first widths at which the round trip on a fresh reader is lost: with version 0 and
default width 63, and with version 1 and chosen width 48, the decoder shifts the 32-bit `result`
by 32 on the encoding of the value 0, so the call does not return true with the value 0. -/
theorem getUInt_wide_undefined :
    (getUInt (VariableLengthInput.fresh (packBits (encodeUInt 0 63 0 0))) 0 63 = Res.undef ∧
      ¬ ∃ s', getUInt (VariableLengthInput.fresh (packBits (encodeUInt 0 63 0 0))) 0 63
        = Res.ok 0 s') ∧
    (getUInt (VariableLengthInput.fresh (packBits (encodeUInt 1 0 48 0))) 1 0 = Res.undef ∧
      ¬ ∃ s', getUInt (VariableLengthInput.fresh (packBits (encodeUInt 1 0 48 0))) 1 0
        = Res.ok 0 s') := by
  have h1 : getUInt (VariableLengthInput.fresh (packBits (encodeUInt 0 63 0 0))) 0 63 =
      Res.undef := by decide
  have h2 : getUInt (VariableLengthInput.fresh (packBits (encodeUInt 1 0 48 0))) 1 0 =
      Res.undef := by decide
  refine ⟨⟨h1, ?_⟩, ⟨h2, ?_⟩⟩
  · rintro ⟨s', h⟩; rw [h1] at h; cases h
  · rintro ⟨s', h⟩; rw [h2] at h; cases h

/-- Witness for `getRiceGolombCode_reference`: the code of 325 with width 3 has 40 zero bits,
so it runs from the first 32-bit word into the second. -/
theorem getRiceGolombCode_reference_witness :
    ∃ s', getRiceGolombCode (VariableLengthInput.fresh (packBits (riceCode 3 325)))
        ((3 : Nat) : Int) = .ok ((40 <<< 3 ||| 5 : Nat) : Int) s' ∧
      s'.WellFormed ∧ s'.unreadBits = List.replicate 20 false ∧
      (VariableLengthInput.fresh (packBits (riceCode 3 325))).unreadBits.length =
        40 + 1 + 3 + s'.unreadBits.length :=
  getRiceGolombCode_reference (VariableLengthInput.fresh (packBits (riceCode 3 325))) 3 40 5
    (List.replicate 20 false) (wellFormed_fresh _) (by decide) (by decide) (by decide)
    (by decide)

/-- Witness for `getRiceGolombCode_unary`: 37 zero bits and a one bit. -/
theorem getRiceGolombCode_unary_witness :
    ∃ s', getRiceGolombCode (VariableLengthInput.fresh (packBits (riceCode 0 37))) 0 =
      .ok ((37 : Nat) : Int) s' :=
  getRiceGolombCode_unary 37 (packBits (riceCode 0 37)) (List.replicate 26 false) (by decide)
    (by decide)

/-! ## The WAVE branch -/

theorem val_ofNat (x : Nat) : ((Fin.ofNat x : Byte)).val = x % 256 := rfl

theorem leValue_le16 (x : Nat) (h : x < 2 ^ 16) : leValue (le16 x) = x := by
  simp only [leValue, le16, List.foldr, val_ofNat]
  omega

theorem leValue_le32 (x : Nat) (h : x < 2 ^ 32) : leValue (le32 x) = x := by
  simp only [leValue, le32, List.foldr, val_ofNat]
  omega

theorem chunkData_eq (header : List Byte) (h1 : 8 ≤ header.length) (h2 : header.length < 2 ^ 32) :
    (header.drop 8).take ((header.length + 2 ^ 32 - 8) % 2 ^ 32) = header.drop 8 := by
  apply List.take_of_length_le
  simp only [List.length_drop]
  omega

theorem waveLoop_step (fuel : Nat) (cd : List Byte) (st st1 : WaveWalk)
    (h : st.offset < cd.length) (hb : waveBody cd st = .done st1) :
    waveLoop (fuel + 1) cd st = waveLoop fuel cd st1 := by
  rw [waveLoop, if_pos h, hb]

theorem waveLoop_exit (fuel : Nat) (cd : List Byte) (st : WaveWalk)
    (h : ¬ st.offset < cd.length) : waveLoop (fuel + 1) cd st = .done st := by
  rw [waveLoop, if_neg h]

/-- Claim C4 (amended): WAVE property extraction. For every canonical 44-byte header
(`'RIFF'`, 4 bytes, `'WAVE'`, `'fmt '` of size 16 with format tag 1, `'data'` with its size) the
container parse succeeds; `sampleRate` is the header field converted to `int` (the field itself
when it is below `2 ^ 31`), `bitsPerSample` is the header field, and `sampleFrames` is
`dataSize / blockAlign` when both are nonzero and 0 otherwise. -/
theorem parseContainer_waveHeader (riffSize channels sampleRate byteRate blockAlign bitsPerSample
    dataSize : Nat) (props : PropertyValues) (hp : props.sampleFrames = 0)
    (hsr : sampleRate < 2 ^ 32) (hba : blockAlign < 2 ^ 16) (hbps : bitsPerSample < 2 ^ 16)
    (hds : dataSize < 2 ^ 32) :
    (waveHeader riffSize channels sampleRate byteRate blockAlign bitsPerSample dataSize).length
      = 44 ∧
    parseContainer
      (waveHeader riffSize channels sampleRate byteRate blockAlign bitsPerSample dataSize) props =
      Walk.done { props with
        sampleRate := toInt32 sampleRate,
        bitsPerSample := (bitsPerSample : Int),
        sampleFrames := if dataSize ≠ 0 ∧ blockAlign ≠ 0 then dataSize / blockAlign else 0 } ∧
    (sampleRate < 2 ^ 31 → toInt32 sampleRate = (sampleRate : Int)) := by
  refine ⟨rfl, ?_, fun h => toInt32_of_lt sampleRate h⟩
  obtain ⟨hdr, hhdr⟩ : ∃ hdr, hdr =
    waveHeader riffSize channels sampleRate byteRate blockAlign bitsPerSample dataSize := ⟨_, rfl⟩
  obtain ⟨cd, hcd⟩ : ∃ cd, cd = hdr.drop 8 := ⟨_, rfl⟩
  have hl : hdr.length = 44 := by rw [hhdr]; rfl
  have h0 : toUInt hdr 0 true = 0x52494646 := by
    have : toUInt hdr 0 true = beValue [0x52, 0x49, 0x46, 0x46] := by rw [hhdr]; rfl
    rw [this]; decide
  have hdrop : (hdr.drop 8).take ((hdr.length + 2 ^ 32 - 8) % 2 ^ 32) = cd := by
    rw [hcd]; exact chunkData_eq hdr (by omega) (by omega)
  have hlen : cd.length = 36 := by rw [hcd, List.length_drop, hl]
  have hcd1 := hcd
  rw [hhdr] at hcd1
  simp only [waveHeader, le32, le16, List.cons_append, List.nil_append, List.drop_succ_cons,
    List.drop_zero] at hcd1
  have e0 : toUInt cd 0 true = beValue [0x57, 0x41, 0x56, 0x45] := by rw [hcd1]; rfl
  have e1 : toUInt cd 4 true = beValue [0x66, 0x6d, 0x74, 0x20] := by rw [hcd1]; rfl
  have e2 : toUInt cd 8 false = leValue (le32 16) := by rw [hcd1]; rfl
  have e3 : toUShort cd 12 false = leValue (le16 1) := by rw [hcd1]; rfl
  have e4 : toUInt cd 16 false = leValue (le32 sampleRate) := by rw [hcd1]; rfl
  have e5 : toUShort cd 24 false = leValue (le16 blockAlign) := by rw [hcd1]; rfl
  have e6 : toUShort cd 26 false = leValue (le16 bitsPerSample) := by rw [hcd1]; rfl
  have e7 : toUInt cd 28 true = beValue [0x64, 0x61, 0x74, 0x61] := by rw [hcd1]; rfl
  have e8 : toUInt cd 32 false = leValue (le32 dataSize) := by rw [hcd1]; rfl
  rw [show beValue [0x57, 0x41, 0x56, 0x45] = 0x57415645 by decide] at e0
  rw [show beValue [0x66, 0x6d, 0x74, 0x20] = 0x666d7420 by decide] at e1
  rw [show leValue (le32 16) = 16 by decide] at e2
  rw [show leValue (le16 1) = 1 by decide] at e3
  rw [show beValue [0x64, 0x61, 0x74, 0x61] = 0x64617461 by decide] at e7
  rw [leValue_le32 _ hsr] at e4
  rw [leValue_le16 _ hba] at e5
  rw [leValue_le16 _ hbps] at e6
  rw [leValue_le32 _ hds] at e8
  have body1 : waveBody cd
      { offset := 4, sawFormatChunk := false, dataChunkSize := 0, blockAlign := 0,
        props := props } =
      Walk.done
        { offset := 28, sawFormatChunk := true, dataChunkSize := 0, blockAlign := blockAlign,
          props := { props with sampleRate := toInt32 sampleRate,
                                bitsPerSample := (bitsPerSample : Int) } } := by
    simp only [waveBody, Nat.reduceAdd, Nat.reducePow, Nat.reduceMod, e1, e2, e3, e4, e5, e6,
      waveFormatPCMTag, if_true, Nat.lt_irrefl, if_false, ne_eq, not_true_eq_false]
  have body2 : waveBody cd
      { offset := 28, sawFormatChunk := true, dataChunkSize := 0, blockAlign := blockAlign,
        props := { props with sampleRate := toInt32 sampleRate,
                              bitsPerSample := (bitsPerSample : Int) } } =
      Walk.done
        { offset := 36, sawFormatChunk := true, dataChunkSize := dataSize,
          blockAlign := blockAlign,
          props := { props with sampleRate := toInt32 sampleRate,
                                bitsPerSample := (bitsPerSample : Int) } } := by
    simp only [waveBody, Nat.reduceAdd, Nat.reducePow, Nat.reduceMod, e7, e8, if_true,
      Nat.reduceEqDiff, if_false]
  rw [← hhdr]
  simp only [parseContainer, h0, hdrop, if_true, parseWave, e0, ne_eq, not_true_eq_false,
    if_false]
  rw [hlen, waveLoop_step 36 cd _ _ (by rw [hlen]; simp only; omega) body1,
    waveLoop_step 35 cd _ _ (by rw [hlen]; simp only; omega) body2,
    waveLoop_exit 34 cd _ (by rw [hlen]; simp only; omega)]
  simp only [Bool.not_true, Bool.false_eq_true, if_false, hp]
  split <;> rfl

/-- Witness for `parseContainer_waveHeader`: sample rate 44100, block align 4 and data size
176400 give 44100 sample frames. -/
theorem parseContainer_waveHeader_witness :
    parseContainer (waveHeader 176436 2 44100 176400 4 16 176400) {} =
      Walk.done { sampleRate := 44100, bitsPerSample := 16, sampleFrames := 44100 } := by
  have h := (parseContainer_waveHeader 176436 2 44100 176400 4 16 176400 {} rfl (by decide)
    (by decide) (by decide) (by decide)).2.1
  rw [h]
  decide

/-- Counterexample to claim C4 as stated: a header whose sample-rate field is `2 ^ 31` is
reported with the sample rate `-2 ^ 31`, not with the value of the field. -/
theorem parseContainer_wave_negative_rate :
    parseContainer (waveHeader 36 2 2147483648 0 4 16 176400) {} =
      Walk.done { sampleRate := -2147483648, bitsPerSample := 16, sampleFrames := 44100 } := by
  decide

/-! ## The AIFF branch -/

theorem beValue_be16 (x : Nat) (h : x < 2 ^ 16) : beValue (be16 x) = x := by
  simp only [beValue, be16, List.foldl, val_ofNat]
  omega

theorem beValue_be32 (x : Nat) (h : x < 2 ^ 32) : beValue (be32 x) = x := by
  simp only [beValue, be32, List.foldl, val_ofNat]
  omega

theorem beValue_be64 (x : Nat) (h : x < 2 ^ 64) : beValue (be64 x) = x := by
  simp only [beValue, be64, List.foldl, val_ofNat]
  omega

theorem aiffLoop_step (fuel : Nat) (cd : List Byte) (st st1 : AiffWalk)
    (h : st.offset < cd.length) (hb : aiffBody cd st = .done st1) :
    aiffLoop (fuel + 1) cd st = aiffLoop fuel cd st1 := by
  rw [aiffLoop, if_pos h, hb]

theorem aiffLoop_exit (fuel : Nat) (cd : List Byte) (st : AiffWalk)
    (h : ¬ st.offset < cd.length) : aiffLoop (fuel + 1) cd st = .done st := by
  rw [aiffLoop, if_neg h]

/-- Rounded right shift of an integer that was shifted left by `n` gives the integer back. -/
theorem extendedToInt_normalized (r n : Nat) (hn1 : 1 ≤ n) (hn : n ≤ 63) (hr : r < 2 ^ 31)
    (hfrac : r * 2 ^ n < 2 ^ 64) : extendedToInt (-(n : Int)) (r * 2 ^ n) = (r : Int) := by
  have c : ¬ (-(n : Int) ≥ 0) := by omega
  have e1 : (-(-(n : Int)) - 1).toNat = n - 1 := by omega
  have e2 : (-(-(n : Int))).toNat = n := by omega
  obtain ⟨m, rfl⟩ : ∃ m, n = m + 1 := ⟨n - 1, by omega⟩
  have hpow : 2 ^ (m + 1) = 2 * 2 ^ m := by rw [Nat.pow_succ]; omega
  have hmpos : 0 < 2 ^ m := by positivity
  have hm64 : 2 ^ m < 2 ^ 64 := Nat.pow_lt_pow_right (by omega) (by omega)
  have hle : (r + 1) * 2 ^ (m + 1) ≤ 2 ^ 64 := by
    have h64 : (2 : Nat) ^ 64 = 2 ^ (63 - m) * 2 ^ (m + 1) := by
      rw [← Nat.pow_add]; congr 1; omega
    rw [h64] at hfrac ⊢
    have := Nat.lt_of_mul_lt_mul_right hfrac
    exact Nat.mul_le_mul_right _ this
  have hsum : r * 2 ^ (m + 1) + 2 ^ m < 2 ^ 64 := by
    have : (r + 1) * 2 ^ (m + 1) = r * 2 ^ (m + 1) + 2 ^ (m + 1) := by ring
    omega
  have hdiv : (r * 2 ^ (m + 1) + 2 ^ m) / 2 ^ (m + 1) = r := by
    rw [Nat.add_comm, Nat.add_mul_div_right _ _ (by positivity), Nat.div_eq_of_lt (by omega)]
    omega
  simp only [extendedToInt, if_neg c, e1, e2, Nat.add_sub_cancel, Nat.shiftLeft_eq, Nat.one_mul,
    Nat.mod_eq_of_lt hm64, Nat.mod_eq_of_lt hsum, Nat.shiftRight_eq_div_pow, hdiv]
  exact toInt32_of_lt r hr

/-- Claim C5: AIFF sample-rate round trip. For every `r` with `1 ≤ r < 2 ^ 31` and
`L = floor(log2 r)` (that is `2 ^ L ≤ r < 2 ^ (L + 1)`), the canonical 54-byte AIFF header whose
`'COMM'` chunk stores the exponent field `16383 + L` and the mantissa `r * 2 ^ (63 - L)` is
accepted with `sampleRate = r`, and `sampleFrames` and `bitsPerSample` are the `'COMM'` fields.
The `'SSND'` chunk that follows declares at least its own 8 bytes of offset and block size. -/
theorem parseContainer_aiff_sampleRate (r L formSize channels sampleFrames bitsPerSample
    ssndSize : Nat) (props : PropertyValues) (hL : 2 ^ L ≤ r) (hL1 : r < 2 ^ (L + 1))
    (hr : r < 2 ^ 31) (hsf : sampleFrames < 2 ^ 32) (hbps : bitsPerSample < 2 ^ 16)
    (hs : 8 ≤ ssndSize) (hs1 : ssndSize + 40 < 2 ^ 32) :
    (aiffHeader formSize 18 channels sampleFrames bitsPerSample (16383 + L) (r * 2 ^ (63 - L))
      ssndSize).length = 54 ∧
    parseContainer
      (aiffHeader formSize 18 channels sampleFrames bitsPerSample (16383 + L) (r * 2 ^ (63 - L))
        ssndSize) props =
      Walk.done { props with sampleRate := (r : Int),
                             bitsPerSample := (bitsPerSample : Int),
                             sampleFrames := sampleFrames } := by
  refine ⟨rfl, ?_⟩
  have hL30 : L ≤ 30 := by
    by_contra hc
    have : 2 ^ 31 ≤ 2 ^ L := Nat.pow_le_pow_right (by omega) (by omega)
    omega
  have hfrac : r * 2 ^ (63 - L) < 2 ^ 64 := by
    have h64 : (2 : Nat) ^ 64 = 2 ^ (L + 1) * 2 ^ (63 - L) := by
      rw [← Nat.pow_add]; congr 1; omega
    rw [h64]
    exact Nat.mul_lt_mul_of_pos_right hL1 (by positivity)
  obtain ⟨hdr, hhdr⟩ : ∃ hdr, hdr = aiffHeader formSize 18 channels sampleFrames bitsPerSample
    (16383 + L) (r * 2 ^ (63 - L)) ssndSize := ⟨_, rfl⟩
  obtain ⟨cd, hcd⟩ : ∃ cd, cd = hdr.drop 8 := ⟨_, rfl⟩
  have hl : hdr.length = 54 := by rw [hhdr]; rfl
  have h0 : toUInt hdr 0 true = 0x464f524d := by
    have : toUInt hdr 0 true = beValue [0x46, 0x4f, 0x52, 0x4d] := by rw [hhdr]; rfl
    rw [this]; decide
  have hdrop : (hdr.drop 8).take ((hdr.length + 2 ^ 32 - 8) % 2 ^ 32) = cd := by
    rw [hcd]; exact chunkData_eq hdr (by omega) (by omega)
  have hlen : cd.length = 46 := by rw [hcd, List.length_drop, hl]
  have hcd1 := hcd
  rw [hhdr] at hcd1
  simp only [aiffHeader, commChunk, be64, be32, be16, List.cons_append, List.nil_append,
    List.drop_succ_cons, List.drop_zero] at hcd1
  have e0 : toUInt cd 0 true = beValue [0x41, 0x49, 0x46, 0x46] := by rw [hcd1]; rfl
  have e1 : toUInt cd 4 true = beValue [0x43, 0x4f, 0x4d, 0x4d] := by rw [hcd1]; rfl
  have e2 : toUInt cd 8 true = beValue (be32 18) := by rw [hcd1]; rfl
  have e3 : toUInt cd 14 true = beValue (be32 sampleFrames) := by rw [hcd1]; rfl
  have e4 : toUShort cd 18 true = beValue (be16 bitsPerSample) := by rw [hcd1]; rfl
  have e5 : toUShort cd 20 true = beValue (be16 (16383 + L)) := by rw [hcd1]; rfl
  have e6 : toULongLong cd 22 true = beValue (be64 (r * 2 ^ (63 - L))) := by rw [hcd1]; rfl
  have e7 : toUInt cd 30 true = beValue [0x53, 0x53, 0x4e, 0x44] := by rw [hcd1]; rfl
  have e8 : toUInt cd 34 true = beValue (be32 ssndSize) := by rw [hcd1]; rfl
  rw [show beValue [0x41, 0x49, 0x46, 0x46] = 0x41494646 by decide] at e0
  rw [show beValue [0x43, 0x4f, 0x4d, 0x4d] = 0x434f4d4d by decide] at e1
  rw [show beValue (be32 18) = 18 by decide] at e2
  rw [show beValue [0x53, 0x53, 0x4e, 0x44] = 0x53534e44 by decide] at e7
  rw [beValue_be32 _ hsf] at e3
  rw [beValue_be16 _ hbps] at e4
  rw [beValue_be16 _ (by omega)] at e5
  rw [beValue_be64 _ hfrac] at e6
  rw [beValue_be32 _ (by omega)] at e8
  have hexp : toInt16 (16383 + L) - 16383 - 63 = -((63 - L : Nat) : Int) := by
    have h1 : (16383 + L) % 2 ^ 16 = 16383 + L := Nat.mod_eq_of_lt (by omega)
    have h2 : 16383 + L < 2 ^ 15 := by omega
    simp only [toInt16, h1, if_pos h2]
    omega
  have hrate := extendedToInt_normalized r (63 - L) (by omega) (by omega) hr hfrac
  have body1 : aiffBody cd { offset := 4, sawCommonChunk := false, props := props } =
      Walk.done
        { offset := 30, sawCommonChunk := true,
          props := { props with sampleFrames := sampleFrames,
                                bitsPerSample := (bitsPerSample : Int),
                                sampleRate := (r : Int) } } := by
    have c1 : ¬ (-((63 - L : Nat) : Int) < -63 ∨ -((63 - L : Nat) : Int) > 63) := by omega
    have c18 : ¬ ((18 + (18 &&& 1)) % 4294967296 < 18) := by decide
    simp only [aiffBody, Nat.reduceAdd, Nat.reducePow, Nat.reduceMod, e1, e2, e3, e4, e5, e6,
      if_true, hexp, if_neg c1, hrate, if_neg c18]
  have body2 : aiffBody cd
        { offset := 30, sawCommonChunk := true,
          props := { props with sampleFrames := sampleFrames,
                                bitsPerSample := (bitsPerSample : Int),
                                sampleRate := (r : Int) } } =
      Walk.done
        { offset := (38 + (ssndSize + (ssndSize &&& 1)) % 2 ^ 32) % 2 ^ 32,
          sawCommonChunk := true,
          props := { props with sampleFrames := sampleFrames,
                                bitsPerSample := (bitsPerSample : Int),
                                sampleRate := (r : Int) } } := by
    simp only [aiffBody, Nat.reduceAdd, Nat.reducePow, Nat.reduceMod, e7, e8, Nat.reduceEqDiff,
      if_false]
  have hexit : ¬ ((38 + (ssndSize + (ssndSize &&& 1)) % 2 ^ 32) % 2 ^ 32 < 46) := by
    rw [Nat.and_one_is_mod]
    omega
  rw [← hhdr]
  have c0 : ¬ ((1380533830 : Nat) = 1179603533) := by decide
  have c2 : ¬ ((1095321158 : Nat) ≠ 1095321158 ∧ (1095321158 : Nat) ≠ 1095321155) := by decide
  simp only [parseContainer, h0, hdrop, parseAiff, e0]
  rw [if_pos True.intro, if_neg c2, hlen,
    aiffLoop_step 46 cd _ _ (by rw [hlen]; simp only; omega) body1,
    aiffLoop_step 45 cd _ _ (by rw [hlen]; simp only; omega) body2,
    aiffLoop_exit 44 cd _ (by rw [hlen]; exact hexit)]
  rfl

/-- Witness for `parseContainer_aiff_sampleRate`: the sample rate 44100 (`L = 15`). -/
theorem parseContainer_aiff_sampleRate_witness :
    parseContainer (aiffHeader 46 18 2 44100 16 (16383 + 15) (44100 * 2 ^ (63 - 15)) 176408) {} =
      Walk.done { sampleRate := 44100, bitsPerSample := 16, sampleFrames := 44100 } :=
  (parseContainer_aiff_sampleRate 44100 15 46 2 44100 16 176408 {} (by decide) (by decide)
    (by decide) (by decide) (by decide) (by decide) (by decide)).2

/-! ## Totality of the reader for widths up to 31 -/

theorem refill_total (s : VariableLengthInput) (hs : s.WellFormed) :
    (∃ s', refillBitBuffer s = (true, s') ∧ s'.WellFormed ∧ s'.bitsAvailable = 32 ∧
      s'.unreadBits.length = (bitsOfWords s.pendingWords).length) ∨
    (∃ s', refillBitBuffer s = (false, s') ∧ s'.WellFormed ∧
      s'.bitsAvailable = s.bitsAvailable) := by
  cases hp : s.pendingWords with
  | nil =>
    right
    refine ⟨_, refill_nil s hs hp, ⟨hs.pos_le, hs.buf_le, hs.bits_le⟩, rfl⟩
  | cons w ws =>
    left
    obtain ⟨s', h1, h2, h3, h4, h5⟩ := refill_cons s hs hp
    refine ⟨s', h1, h5, h3, ?_⟩
    simp only [VariableLengthInput.unreadBits, h3, h4, bitsOfWords, List.length_append,
      bitsOf_length, bitsOfWords_length, List.length_cons, Nat.mul_succ, Nat.add_comm]

theorem unaryLoop_total (fuel : Nat) : ∀ (s : VariableLengthInput) (result : Nat),
    s.WellFormed → 1 ≤ s.bitsAvailable → s.unreadBits.length < fuel →
    (∃ v s', unaryLoop fuel s result = .ok v s' ∧ s'.WellFormed ∧ s'.bitsAvailable ≤ 31) ∨
    (∃ s', unaryLoop fuel s result = .fail s' ∧ s'.WellFormed) := by
  induction fuel with
  | zero => intro s result _ _ h; omega
  | succ f ih =>
    intro s result hs hb hf
    have hle := hs.bits_le
    have c1 : ¬ (s.bitsAvailable = 0 ∨ s.bitsAvailable > 64) := by omega
    have hs1 := wellFormed_setBits s hs (s.bitsAvailable - 1) (by omega)
    have hlen := congrArg List.length (unreadBits_pred s hb)
    simp only [List.length_cons] at hlen
    simp only [unaryLoop, if_neg c1]
    by_cases c2 : s.bitBuffer &&& (1 <<< (s.bitsAvailable - 1)) ≠ 0
    · simp only [if_pos c2]
      exact Or.inl ⟨_, _, rfl, hs1, by simp only; omega⟩
    · simp only [if_neg c2]
      by_cases c3 : s.bitsAvailable - 1 = 0
      · simp only [if_pos c3]
        rcases refill_total _ hs1 with ⟨s2, e1, e2, e3, e5⟩ | ⟨s2, e1, e2, _⟩
        · rw [e1]
          simp only
          apply ih s2 _ e2 (by omega)
          have : ({ s with bitsAvailable := s.bitsAvailable - 1 } : VariableLengthInput).unreadBits.length
              = (bitsOfWords ({ s with bitsAvailable := s.bitsAvailable - 1 } :
                  VariableLengthInput).pendingWords).length := by
            simp only [VariableLengthInput.unreadBits, c3, bitsOf, List.nil_append]
          omega
        · rw [e1]
          exact Or.inr ⟨s2, rfl, e2⟩
      · simp only [if_neg c3]
        exact ih _ _ hs1 (by simp only; omega) (by omega)

theorem remainderLoop_total (s : VariableLengthInput) (k : Int) (result : Nat)
    (hs : s.WellFormed) (hk0 : 0 ≤ k) (hk : k ≤ 31) :
    (remainderLoop 3 s k result).Settled := by
  have hle := hs.bits_le
  by_cases c0 : k = 0
  · exact Or.inl ⟨result, s, by simp [remainderLoop, c0], hs⟩
  by_cases c1 : (s.bitsAvailable : Int) ≥ k
  · have c2 : ¬ (k < 0 ∨ k ≥ 32) := by omega
    simp only [remainderLoop, if_neg c0, if_pos c1, if_neg c2]
    exact Or.inl ⟨_, _, rfl, wellFormed_setBits s hs (s.bitsAvailable - k.toNat) (by omega)⟩
  · have c3 : ¬ (s.bitsAvailable ≥ 32) := by omega
    simp only [remainderLoop, if_neg c0, if_neg c1, if_neg c3]
    rcases refill_total s hs with ⟨s2, e1, e2, e3, _⟩ | ⟨s2, e1, e2, _⟩
    · rw [e1]
      simp only
      have d0 : ¬ (k - (s.bitsAvailable : Int) = 0) := by omega
      have d1 : (s2.bitsAvailable : Int) ≥ k - (s.bitsAvailable : Int) := by omega
      have d2 : ¬ (k - (s.bitsAvailable : Int) < 0 ∨ k - (s.bitsAvailable : Int) ≥ 32) := by omega
      simp only [if_neg d0, if_pos d1, if_neg d2]
      exact Or.inl ⟨_, _, rfl, wellFormed_setBits s2 e2
        (s2.bitsAvailable - (k - (s.bitsAvailable : Int)).toNat) (by omega)⟩
    · rw [e1]
      exact Or.inr ⟨s2, rfl, e2⟩

theorem Res.Settled.map {α β : Type} {r : Res α} (f : α → β) (h : r.Settled) :
    (r.map f).Settled := by
  rcases h with ⟨v, s', rfl, hs⟩ | ⟨s', rfl, hs⟩
  · exact Or.inl ⟨f v, s', rfl, hs⟩
  · exact Or.inr ⟨s', rfl, hs⟩

/-- With a width from 0 to 31 a call from a well-formed state returns true or false (it neither
runs into an undefined shift nor out of fuel) and leaves a well-formed state. -/
theorem getRiceGolombCode_total (s : VariableLengthInput) (k : Int) (hs : s.WellFormed)
    (hk0 : 0 ≤ k) (hk : k ≤ 31) : (getRiceGolombCode s k).Settled := by
  have hstart : (∃ s1, (if s.bitsAvailable = 0 then refillBitBuffer s else (true, s)) = (true, s1) ∧
      s1.WellFormed ∧ 1 ≤ s1.bitsAvailable) ∨
      (∃ s1, (if s.bitsAvailable = 0 then refillBitBuffer s else (true, s)) = (false, s1) ∧
      s1.WellFormed) := by
    by_cases h0 : s.bitsAvailable = 0
    · rw [if_pos h0]
      rcases refill_total s hs with ⟨s2, e1, e2, e3, _⟩ | ⟨s2, e1, e2, _⟩
      · exact Or.inl ⟨s2, e1, e2, by omega⟩
      · exact Or.inr ⟨s2, e1, e2⟩
    · rw [if_neg h0]
      exact Or.inl ⟨s, rfl, hs, by omega⟩
  rcases hstart with ⟨s1, e1, e2, e3⟩ | ⟨s1, e1, e2⟩
  · rcases unaryLoop_total (unaryFuel s1) s1 0 e2 e3 (unreadBits_length_lt s1) with
      ⟨v, s2, u1, u2, _⟩ | ⟨s2, u1, u2⟩
    · have := (remainderLoop_total s2 k v u2 hk0 hk).map toInt32
      simpa only [getRiceGolombCode, e1, u1] using this
    · refine Or.inr ⟨s2, ?_, u2⟩
      simp only [getRiceGolombCode, e1, u1]
  · refine Or.inr ⟨s1, ?_, e2⟩
    simp only [getRiceGolombCode, e1]

theorem Res.bind_eq_ok {α β : Type} (r : Res α) (f : α → VariableLengthInput → Res β) (v : β)
    (s : VariableLengthInput) :
    r.bind f = .ok v s ↔ ∃ a s1, r = .ok a s1 ∧ f a s1 = .ok v s := by
  cases r with
  | ok a s1 =>
    constructor
    · intro h; exact ⟨a, s1, rfl, h⟩
    · rintro ⟨a', s1', h1, h2⟩; cases h1; exact h2
  | fail s1 => simp [Res.bind]
  | undef => simp [Res.bind]
  | timeout => simp [Res.bind]

theorem Res.map_eq_ok {α β : Type} (r : Res α) (f : α → β) (v : β) (s : VariableLengthInput) :
    r.map f = .ok v s ↔ ∃ a, r = .ok a s ∧ f a = v := by
  cases r with
  | ok a s1 =>
    constructor
    · intro h; simp only [Res.map, Res.ok.injEq] at h; exact ⟨a, by rw [h.2], h.1⟩
    · rintro ⟨a', h1, h2⟩; cases h1; simp only [Res.map, h2]
  | fail s1 => simp [Res.map]
  | undef => simp [Res.map]
  | timeout => simp [Res.map]

theorem remainderLoop_ok_wf (fuel : Nat) : ∀ (s : VariableLengthInput) (k : Int) (result v : Nat)
    (s' : VariableLengthInput), s.WellFormed → remainderLoop fuel s k result = .ok v s' →
    s'.WellFormed := by
  induction fuel with
  | zero => intro s k result v s' _ h; simp [remainderLoop] at h
  | succ f ih =>
    intro s k result v s' hs h
    have hle := hs.bits_le
    rw [remainderLoop] at h
    split at h
    · cases h; exact hs
    · split at h
      · split at h
        · cases h
        · cases h
          exact wellFormed_setBits s hs _ (by omega)
      · split at h
        · cases h
        · rcases refill_total s hs with ⟨s2, e1, e2, _, _⟩ | ⟨s2, e1, e2, _⟩
          · rw [e1] at h
            exact ih s2 _ _ v s' e2 h
          · rw [e1] at h
            cases h

theorem getRiceGolombCode_ok_wf (s : VariableLengthInput) (k v : Int) (s' : VariableLengthInput)
    (hs : s.WellFormed) (h : getRiceGolombCode s k = .ok v s') : s'.WellFormed := by
  have hstart : (∃ s1, (if s.bitsAvailable = 0 then refillBitBuffer s else (true, s)) = (true, s1) ∧
      s1.WellFormed ∧ 1 ≤ s1.bitsAvailable) ∨
      (∃ s1, (if s.bitsAvailable = 0 then refillBitBuffer s else (true, s)) = (false, s1)) := by
    by_cases h0 : s.bitsAvailable = 0
    · rw [if_pos h0]
      rcases refill_total s hs with ⟨s2, e1, e2, e3, _⟩ | ⟨s2, e1, e2, _⟩
      · exact Or.inl ⟨s2, e1, e2, by omega⟩
      · exact Or.inr ⟨s2, e1⟩
    · rw [if_neg h0]
      exact Or.inl ⟨s, rfl, hs, by omega⟩
  rcases hstart with ⟨s1, e1, e2, e3⟩ | ⟨s1, e1⟩
  · rcases unaryLoop_total (unaryFuel s1) s1 0 e2 e3 (unreadBits_length_lt s1) with
      ⟨q, s2, u1, u2, _⟩ | ⟨s2, u1, u2⟩
    · simp only [getRiceGolombCode, e1, u1] at h
      obtain ⟨a, ha, _⟩ := (Res.map_eq_ok _ _ _ _).mp h
      exact remainderLoop_ok_wf 3 s2 k q a s' u2 ha
    · simp only [getRiceGolombCode, e1, u1] at h
      cases h
  · simp only [getRiceGolombCode, e1] at h
    cases h

theorem getUInt_ok_wf (s : VariableLengthInput) (version k : Int) (v : Nat)
    (s' : VariableLengthInput) (hs : s.WellFormed) (h : getUInt s version k = .ok v s') :
    s'.WellFormed := by
  unfold getUInt at h
  split at h
  · split at h
    · rename_i k1 s1 e1
      obtain ⟨a, ha, _⟩ := (Res.map_eq_ok _ _ _ _).mp h
      exact getRiceGolombCode_ok_wf s1 k1 a s' (getRiceGolombCode_ok_wf s _ k1 s1 hs e1) ha
    · cases h
    · cases h
    · cases h
  · obtain ⟨a, ha, _⟩ := (Res.map_eq_ok _ _ _ _).mp h
    exact getRiceGolombCode_ok_wf s k a s' hs ha

theorem skipLoop_ok_wf (n : Nat) : ∀ (s : VariableLengthInput) (version : Int)
    (s' : VariableLengthInput), s.WellFormed → skipLoop n s version = .ok () s' →
    s'.WellFormed := by
  induction n with
  | zero => intro s version s' hs h; simp only [skipLoop] at h; cases h; exact hs
  | succ n ih =>
    intro s version s' hs h
    rw [skipLoop] at h
    split at h
    · rename_i v s1 e1
      exact ih s1 version s' (getUInt_ok_wf s version _ v s1 hs e1) h
    · cases h
    · cases h
    · cases h

/-- What a successful pass over the stream-level fields has established. -/
theorem readStreamInfo_ok (s : VariableLengthInput) (version : Nat) (props props' : PropertyValues)
    (s' : VariableLengthInput) (hs : s.WellFormed)
    (h : readStreamInfo s version props = .ok props' s') :
    s'.WellFormed ∧ ∃ fileType s1 channelCount s2,
      getUInt s version fileTypeCodeSize = .ok fileType s1 ∧
      getUInt s1 version channelCountCodeSize = .ok channelCount s2 ∧
      1 ≤ channelCount ∧ channelCount ≤ 8 ∧
      props' = { props with fileType := toInt32 fileType, channelCount := (channelCount : Int) } := by
  unfold readStreamInfo at h
  obtain ⟨ft, s1, e1, h⟩ := (Res.bind_eq_ok _ _ _ _).mp h
  obtain ⟨cc, s2, e2, h⟩ := (Res.bind_eq_ok _ _ _ _).mp h
  have w1 := getUInt_ok_wf s _ _ ft s1 hs e1
  have w2 := getUInt_ok_wf s1 _ _ cc s2 w1 e2
  split at h
  · cases h
  · rename_i hcc
    simp only [maxChannelCount] at hcc
    have hcc1 : 1 ≤ cc := by omega
    have hcc8 : cc ≤ 8 := by omega
    have hcast : toInt32 cc = (cc : Int) := toInt32_of_lt cc (by omega)
    split at h
    · obtain ⟨bs, s3, e3, h⟩ := (Res.bind_eq_ok _ _ _ _).mp h
      have w3 := getUInt_ok_wf s2 _ _ bs s3 w2 e3
      split at h
      · cases h
      · obtain ⟨x4, s4, e4, h⟩ := (Res.bind_eq_ok _ _ _ _).mp h
        have w4 := getUInt_ok_wf s3 _ _ x4 s4 w3 e4
        obtain ⟨x5, s5, e5, h⟩ := (Res.bind_eq_ok _ _ _ _).mp h
        have w5 := getUInt_ok_wf s4 _ _ x5 s5 w4 e5
        obtain ⟨x6, s6, e6, h⟩ := (Res.bind_eq_ok _ _ _ _).mp h
        have w6 := getUInt_ok_wf s5 _ _ x6 s6 w5 e6
        obtain ⟨x7, s7, e7, h⟩ := (Res.bind_eq_ok _ _ _ _).mp h
        have w7 := skipLoop_ok_wf x6 s6 _ s7 w6 e7
        cases h
        exact ⟨w7, ft, s1, cc, s2, e1, e2, hcc1, hcc8, by rw [hcast]⟩
    · cases h
      exact ⟨w2, ft, s1, cc, _, e1, e2, hcc1, hcc8, by rw [hcast]⟩

/-! ## The verbatim section -/

theorem read_eq (file : List Byte)
    (hmagic : file.take 4 = [0x61, 0x6a, 0x6b, 0x67])
    (hsupported : 1 ≤ versionOf file ∧ versionOf file ≤ 3) :
    read file =
      match readStreamInfo (VariableLengthInput.fresh (streamOf file)) (versionOf file)
          { version := (versionOf file : Int) } with
      | .ok props s => readFromVerbatim s props
      | .fail _ => .invalid
      | .undef => .undef
      | .timeout => .timeout := by
  have c1 : ¬ (file.take 4 ≠ [0x61, 0x6a, 0x6b, 0x67]) := by simp [hmagic]
  have c2 : ¬ (toUInt ((file.drop 4).take 1) 0 true < minSupportedVersion ∨
      toUInt ((file.drop 4).take 1) 0 true > maxSupportedVersion) := by
    simp only [versionOf, minSupportedVersion, maxSupportedVersion] at hsupported ⊢
    omega
  simp only [read, readBlock, if_neg c1, if_neg c2, versionOf, streamOf]

theorem read_invalid_of_magic (file : List Byte)
    (h : file.take 4 ≠ [0x61, 0x6a, 0x6b, 0x67]) : read file = .invalid := by
  simp only [read, readBlock, if_pos h]

theorem read_invalid_of_version (file : List Byte)
    (h : ¬ (1 ≤ versionOf file ∧ versionOf file ≤ 3)) : read file = .invalid := by
  have c2 : (toUInt ((file.drop 4).take 1) 0 true < minSupportedVersion ∨
      toUInt ((file.drop 4).take 1) 0 true > maxSupportedVersion) := by
    simp only [versionOf, minSupportedVersion, maxSupportedVersion] at h ⊢
    omega
  simp only [read, readBlock, if_pos c2]
  split <;> rfl

theorem waveBody_streamFields (cd : List Byte) (st st1 : WaveWalk)
    (h : waveBody cd st = .done st1) : SameStreamFields st1.props st.props := by
  unfold waveBody at h
  simp only at h
  split at h
  · split at h
    · cases h
    · split at h
      · cases h
      · rw [Walk.done.injEq] at h
        subst h
        exact ⟨rfl, rfl, rfl⟩
  · split at h
    · rw [Walk.done.injEq] at h
      subst h
      exact ⟨rfl, rfl, rfl⟩
    · rw [Walk.done.injEq] at h
      subst h
      exact ⟨rfl, rfl, rfl⟩

theorem waveLoop_streamFields (fuel : Nat) : ∀ (cd : List Byte) (st st1 : WaveWalk),
    waveLoop fuel cd st = .done st1 → SameStreamFields st1.props st.props := by
  induction fuel with
  | zero => intro cd st st1 h; simp [waveLoop] at h
  | succ f ih =>
    intro cd st st1 h
    rw [waveLoop] at h
    split at h
    · split at h
      · rename_i st2 hb
        have h1 := waveBody_streamFields cd st st2 hb
        have h2 := ih cd st2 st1 h
        exact ⟨h2.1.trans h1.1, h2.2.1.trans h1.2.1, h2.2.2.trans h1.2.2⟩
      · cases h
      · cases h
    · cases h; exact ⟨rfl, rfl, rfl⟩

theorem aiffBody_streamFields (cd : List Byte) (st st1 : AiffWalk)
    (h : aiffBody cd st = .done st1) : SameStreamFields st1.props st.props := by
  unfold aiffBody at h
  simp only at h
  split at h
  · split at h
    · cases h
    · split at h
      · cases h
      · rw [Walk.done.injEq] at h
        subst h
        exact ⟨rfl, rfl, rfl⟩
  · rw [Walk.done.injEq] at h
    subst h
    exact ⟨rfl, rfl, rfl⟩

theorem aiffLoop_streamFields (fuel : Nat) : ∀ (cd : List Byte) (st st1 : AiffWalk),
    aiffLoop fuel cd st = .done st1 → SameStreamFields st1.props st.props := by
  induction fuel with
  | zero => intro cd st st1 h; simp [aiffLoop] at h
  | succ f ih =>
    intro cd st st1 h
    rw [aiffLoop] at h
    split at h
    · split at h
      · rename_i st2 hb
        have h1 := aiffBody_streamFields cd st st2 hb
        have h2 := ih cd st2 st1 h
        exact ⟨h2.1.trans h1.1, h2.2.1.trans h1.2.1, h2.2.2.trans h1.2.2⟩
      · cases h
      · cases h
    · cases h; exact ⟨rfl, rfl, rfl⟩

/-- Container parsing changes none of the stream-level fields. -/
theorem parseContainer_streamFields (header : List Byte) (props p : PropertyValues)
    (h : parseContainer header props = .done p) : SameStreamFields p props := by
  unfold parseContainer at h
  simp only at h
  split at h
  · unfold parseWave at h
    split at h
    · cases h
    · split at h
      · rename_i st hl
        have := waveLoop_streamFields _ _ _ _ hl
        split at h
        · cases h
        · split at h
          · cases h; exact this
          · cases h; exact this
      · cases h
      · cases h
  · split at h
    · unfold parseAiff at h
      split at h
      · cases h
      · split at h
        · rename_i st hl
          have := aiffLoop_streamFields _ _ _ _ hl
          split at h
          · cases h
          · cases h; exact this
        · cases h
        · cases h
    · cases h

theorem streamChannelCount_of_info (file : List Byte) (props : PropertyValues)
    (s : VariableLengthInput)
    (hinfo : readStreamInfo (VariableLengthInput.fresh (streamOf file)) (versionOf file)
      { version := (versionOf file : Int) } = .ok props s) :
    ∃ cc, streamChannelCount file = some cc ∧ 1 ≤ cc ∧ cc ≤ 8 ∧ props.channelCount = (cc : Int) := by
  obtain ⟨_, ft, s1, cc, s2, e1, e2, h1, h8, hp⟩ :=
    readStreamInfo_ok _ _ _ _ _ (wellFormed_fresh _) hinfo
  refine ⟨cc, ?_, h1, h8, by rw [hp]⟩
  simp only [streamChannelCount, e1, e2]

theorem readStreamInfo_fail_of_channels (s : VariableLengthInput) (version : Nat)
    (props : PropertyValues) (ft cc : Nat) (s1 s2 : VariableLengthInput)
    (e1 : getUInt s version fileTypeCodeSize = .ok ft s1)
    (e2 : getUInt s1 version channelCountCodeSize = .ok cc s2) (hcc : cc = 0 ∨ cc > 8) :
    readStreamInfo s version props = .fail s2 := by
  have c : cc = 0 ∨ cc > maxChannelCount := hcc
  simp only [readStreamInfo, e1, e2, Res.bind, if_pos c]

/-- Claim C10: a stream-level channel count of 0 or of more than 8 makes `read` mark the file
invalid whatever follows, and every property record that `read` produces has a channel count
from 1 to 8 that is the stream-level value. -/
theorem read_channelCount (file : List Byte) :
    (∀ cc, streamChannelCount file = some cc → (cc = 0 ∨ cc > 8) → read file = .invalid) ∧
    (∀ props, read file = .valid props →
      1 ≤ props.channelCount ∧ props.channelCount ≤ 8 ∧
      streamChannelCount file = some props.channelCount.toNat) := by
  by_cases hmagic : file.take 4 = [0x61, 0x6a, 0x6b, 0x67]
  swap
  · have hr := read_invalid_of_magic file hmagic
    exact ⟨fun _ _ _ => hr, fun props h => by rw [hr] at h; cases h⟩
  by_cases hsupported : 1 ≤ versionOf file ∧ versionOf file ≤ 3
  swap
  · have hr := read_invalid_of_version file hsupported
    exact ⟨fun _ _ _ => hr, fun props h => by rw [hr] at h; cases h⟩
  have hread := read_eq file hmagic hsupported
  constructor
  · intro cc hsc hcc
    unfold streamChannelCount at hsc
    split at hsc
    · rename_i ft s1 e1
      split at hsc
      · rename_i cc' s2 e2
        cases hsc
        rw [hread, readStreamInfo_fail_of_channels _ _ _ ft cc s1 s2 e1 e2 hcc]
      · cases hsc
    · cases hsc
  · intro props h
    rw [hread] at h
    split at h
    · rename_i props0 s hinfo
      obtain ⟨cc, c1, c2, c3, c4⟩ := streamChannelCount_of_info file props0 s hinfo
      unfold readFromVerbatim at h
      split at h
      · rename_i header s3 hv
        cases hp : parseContainer header props0 with
        | done p =>
          rw [hp] at h
          simp only [ReadResult.ofWalk, ReadResult.valid.injEq] at h
          subst h
          have hsame := parseContainer_streamFields header props0 p hp
          rw [hsame.2.2, c4]
          refine ⟨by omega, by omega, ?_⟩
          rw [c1, Int.toNat_ofNat]
        | invalid => rw [hp] at h; cases h
        | timeout => rw [hp] at h; cases h
      · cases h
      · cases h
      · cases h
    · cases h
    · cases h
    · cases h

/-! ## Witnesses and evaluations at concrete inputs -/

set_option maxRecDepth 100000 in
/-- Witness for `read_channelCount`: nine channels make the file invalid, and the record of
`sampleFile` has the two channels of its stream. -/
theorem read_channelCount_witness :
    read sampleFileNineChannels = .invalid ∧
    (1 ≤ (2 : Int) ∧ (2 : Int) ≤ 8 ∧ streamChannelCount sampleFile = some (2 : Int).toNat) :=
  ⟨(read_channelCount sampleFileNineChannels).1 9 (by decide) (by decide),
   (read_channelCount sampleFile).2
     { version := 2, fileType := 5, channelCount := 2, sampleRate := 44100,
       bitsPerSample := 16, sampleFrames := 44100 } (by decide)⟩

/-- Claim C6 (evaluation at the failing input): a WAVE header in which a `'LIST'` chunk of
declared size 4 precedes the `'fmt '` chunk. The pass over the `'LIST'` chunk leaves the offset
at 12, right after the 8-byte chunk header and not 4 bytes further; the walk never reads the
`'fmt '` header at offset 16 and the parse fails. -/
theorem parseContainer_wave_unknown_chunk :
    waveBody
      ((waveHeaderWithChunk [0x4c, 0x49, 0x53, 0x54] [1, 2, 3, 4] 2 44100 176400 4 16 176400
        [0, 0, 0, 0]).drop 8)
      { offset := 4, sawFormatChunk := false, dataChunkSize := 0, blockAlign := 0, props := {} } =
      Walk.done
        { offset := 12, sawFormatChunk := false, dataChunkSize := 0, blockAlign := 0,
          props := {} } ∧
    toUInt ((waveHeaderWithChunk [0x4c, 0x49, 0x53, 0x54] [1, 2, 3, 4] 2 44100 176400 4 16
      176400 [0, 0, 0, 0]).drop 8) 16 true = 0x666d7420 ∧
    parseContainer
      (waveHeaderWithChunk [0x4c, 0x49, 0x53, 0x54] [1, 2, 3, 4] 2 44100 176400 4 16 176400
        [0, 0, 0, 0]) {} = Walk.invalid := by
  decide

/-- Claim C7 (evaluation at the failing input): a `'COMM'` chunk with exponent field 16397
(`e = -49`) and mantissa `2 ^ 64 - 1`. The rounded shift of the claim is
`floor((m + 2 ^ 48) / 2 ^ 49) = 32768`, which fits a signed 32-bit integer; the 64-bit sum of
the code wraps and the reported sample rate is 0. -/
theorem parseContainer_aiff_rounding_wraps :
    parseContainer (aiffHeader 46 18 2 44100 16 16397 (2 ^ 64 - 1) 176408) {} =
      Walk.done { sampleRate := 0, bitsPerSample := 16, sampleFrames := 44100 } ∧
    extendedToInt (toInt16 16397 - 16383 - 63) (2 ^ 64 - 1) = 0 ∧
    toInt16 16397 - 16383 - 63 = -49 ∧
    (2 ^ 64 - 1 + 2 ^ 48) / 2 ^ 49 = 32768 := by
  decide

/-- Claim C8 (evaluation at the failing input): a `'COMM'` chunk whose declared size is 17.
The size is rounded up to 18 before it is compared with 18, so the chunk is accepted and
18 bytes are read from it. -/
theorem parseContainer_aiff_comm_size_17 :
    parseContainer (aiffHeader 46 17 2 44100 16 16398 (44100 * 2 ^ 48) 176408) {} =
      Walk.done { sampleRate := 44100, bitsPerSample := 16, sampleFrames := 44100 } := by
  decide

/-! ## Offsets of the chunk walks -/

/-- In the WAVE chunk walk a pass that falls through to the next iteration has
moved the offset by 8 bytes, or by 24 when the chunk is an accepted `'fmt '` chunk (8 for the
chunk header and 16 for the payload, whatever the declared size); a `'data'` chunk moves it
by 8, that is by no payload bytes. -/
theorem waveBody_advance (cd : List Byte) (st st1 : WaveWalk) (hlen : cd.length + 24 ≤ 2 ^ 32)
    (ho : st.offset < cd.length) (h : waveBody cd st = .done st1) :
    (toUInt cd st.offset true = 0x666d7420 → st1.offset = st.offset + 8 + 16) ∧
    (toUInt cd st.offset true = 0x64617461 → st1.offset = st.offset + 8 + 0) ∧
    (st1.offset = st.offset + 8 ∨ st1.offset = st.offset + 24) := by
  unfold waveBody at h
  simp only at h
  split at h
  · rename_i hid
    split at h
    · cases h
    · split at h
      · cases h
      · rw [Walk.done.injEq] at h
        subst h
        have e : ((((((((st.offset + 4) % 2 ^ 32 + 4) % 2 ^ 32 + 2) % 2 ^ 32 + 2) % 2 ^ 32 + 4) %
            2 ^ 32 + 4) % 2 ^ 32 + 2) % 2 ^ 32 + 2) % 2 ^ 32 = st.offset + 24 := by omega
        refine ⟨fun _ => ?_, fun hd => ?_, Or.inr ?_⟩
        · simp only [e]
        · rw [hid] at hd; exact absurd hd (by decide)
        · simp only [e]
  · rename_i hid
    have e : ((st.offset + 4) % 2 ^ 32 + 4) % 2 ^ 32 = st.offset + 8 := by omega
    split at h
    · rw [Walk.done.injEq] at h
      subst h
      exact ⟨fun hf => absurd hf hid, fun _ => by simp only [e, Nat.add_zero], Or.inl (by simp only [e])⟩
    · rw [Walk.done.injEq] at h
      subst h
      rename_i hd
      exact ⟨fun hf => absurd hf hid, fun h2 => absurd h2 hd, Or.inl (by simp only [e])⟩

/-- Claim C20: in the WAVE chunk walk an accepted `'fmt '` chunk moves the offset by its
8-byte chunk header and exactly 16 payload bytes whatever its declared size, a `'data'` chunk
by its chunk header and no payload bytes, and every pass that falls through to the next
iteration leaves the offset 8 or 24 bytes past its value before the pass. -/
theorem waveBody_offset (cd : List Byte) (st st1 : WaveWalk) (hlen : cd.length + 24 ≤ 2 ^ 32)
    (ho : st.offset < cd.length) (h : waveBody cd st = .done st1) :
    (toUInt cd st.offset true = 0x666d7420 → st1.offset = st.offset + 8 + 16) ∧
    (toUInt cd st.offset true = 0x64617461 → st1.offset = st.offset + 8 + 0) ∧
    (st1.offset = st.offset + 8 ∨ st1.offset = st.offset + 24) :=
  waveBody_advance cd st st1 hlen ho h

/-- Witness for `waveBody_offset`: the pass over the `'fmt '` chunk of `sampleHeader`. -/
theorem waveBody_offset_witness :
    (toUInt (sampleHeader.drop 8) 4 true = 0x666d7420 → (28 : Nat) = 4 + 8 + 16) ∧
    (toUInt (sampleHeader.drop 8) 4 true = 0x64617461 → (28 : Nat) = 4 + 8 + 0) ∧
    ((28 : Nat) = 4 + 8 ∨ (28 : Nat) = 4 + 24) :=
  waveBody_offset (sampleHeader.drop 8)
    { offset := 4, sawFormatChunk := false, dataChunkSize := 0, blockAlign := 0, props := {} }
    { offset := 28, sawFormatChunk := true, dataChunkSize := 0, blockAlign := 4,
      props := { sampleRate := 44100, bitsPerSample := 16 } }
    (by decide) (by decide) (by decide)

/-- The pass over a `'COMM'` chunk when the offset does not wrap. -/
theorem aiffBody_comm (cd : List Byte) (st : AiffWalk) (ho : st.offset + 26 < 2 ^ 32)
    (hid : toUInt cd st.offset true = 0x434f4d4d) :
    aiffBody cd st =
      if (toUInt cd (st.offset + 4) true + (toUInt cd (st.offset + 4) true &&& 1)) % 2 ^ 32 < 18
      then .invalid
      else if toInt16 (toUShort cd (st.offset + 16) true) - 16383 - 63 < -63 ∨
          toInt16 (toUShort cd (st.offset + 16) true) - 16383 - 63 > 63 then .invalid
      else
        .done { offset := st.offset + 26, sawCommonChunk := true,
                props := { st.props with
                  sampleFrames := toUInt cd (st.offset + 10) true,
                  bitsPerSample := (toUShort cd (st.offset + 14) true : Int),
                  sampleRate := extendedToInt
                    (toInt16 (toUShort cd (st.offset + 16) true) - 16383 - 63)
                    (toULongLong cd (st.offset + 18) true) } } := by
  have e4 : (st.offset + 4) % 2 ^ 32 = st.offset + 4 := by omega
  have e8 : (st.offset + 4 + 4) % 2 ^ 32 = st.offset + 8 := by omega
  have e10 : (st.offset + 8 + 2) % 2 ^ 32 = st.offset + 10 := by omega
  have e14 : (st.offset + 10 + 4) % 2 ^ 32 = st.offset + 14 := by omega
  have e16 : (st.offset + 14 + 2) % 2 ^ 32 = st.offset + 16 := by omega
  have e18 : (st.offset + 16 + 2) % 2 ^ 32 = st.offset + 18 := by omega
  have e26 : (st.offset + 18 + 8) % 2 ^ 32 = st.offset + 26 := by omega
  simp only [aiffBody, hid, if_true, e4, e8, e10, e14, e16, e18, e26]

/-- The pass over a chunk that is not `'COMM'`. -/
theorem aiffBody_skip (cd : List Byte) (st : AiffWalk) (ho : st.offset + 8 < 2 ^ 32)
    (hid : toUInt cd st.offset true ≠ 0x434f4d4d) :
    aiffBody cd st =
      .done { st with offset := (st.offset + 8 +
        (toUInt cd (st.offset + 4) true + (toUInt cd (st.offset + 4) true &&& 1)) % 2 ^ 32) %
          2 ^ 32 } := by
  have e4 : (st.offset + 4) % 2 ^ 32 = st.offset + 4 := by omega
  have e8 : (st.offset + 4 + 4) % 2 ^ 32 = st.offset + 8 := by omega
  simp only [aiffBody, if_neg hid, e4, e8]

/-- A pass that leaves the walk where it was makes the AIFF loop run for ever: whatever the
fuel, it is used up. -/
theorem aiffLoop_fixpoint (cd : List Byte) (st : AiffWalk) (ho : st.offset < cd.length)
    (hb : aiffBody cd st = .done st) : ∀ fuel, aiffLoop fuel cd st = .timeout := by
  intro fuel
  induction fuel with
  | zero => rfl
  | succ f ih => rw [aiffLoop, if_pos ho, hb]; exact ih

/-! ## Termination of the chunk walks -/

/-- The WAVE walk ends: with `fuel + 1` passes allowed it does not run out of fuel once
`8 * fuel` bytes reach past the end of the chunk data. -/
theorem waveLoop_ends (cd : List Byte) (hlen : cd.length + 24 ≤ 2 ^ 32) (fuel : Nat) :
    ∀ st : WaveWalk, cd.length ≤ st.offset + 8 * fuel → waveLoop (fuel + 1) cd st ≠ .timeout := by
  induction fuel with
  | zero =>
    intro st h
    rw [waveLoop, if_neg (by omega)]
    exact fun h => by cases h
  | succ f ih =>
    intro st h
    rw [waveLoop]
    split
    · rename_i ho
      split
      · rename_i st1 hb
        have := (waveBody_advance cd st st1 hlen ho hb).2.2
        exact ih st1 (by omega)
      · exact fun h => by cases h
      · rename_i hb
        unfold waveBody at hb
        simp only at hb
        split at hb
        · split at hb
          · cases hb
          · split at hb <;> cases hb
        · split at hb <;> cases hb
    · exact fun h => by cases h

/-- The WAVE branch always returns: it fails or produces a record. -/
theorem parseWave_ends (cd : List Byte) (props : PropertyValues) (hlen : cd.length + 24 ≤ 2 ^ 32) :
    parseWave cd props ≠ .timeout := by
  unfold parseWave
  split
  · exact fun h => by cases h
  · split
    · split
      · exact fun h => by cases h
      · split <;> exact fun h => by cases h
    · exact fun h => by cases h
    · rename_i hl
      exact absurd hl (waveLoop_ends cd hlen cd.length _ (by simp only; omega))

/-- Claim C16 (evaluation at the failing input): `loopingAiffHeader` is a 44-byte header whose
first chunk is not `'COMM'` and declares the size `0xFFFFFFF8`. The pass over that chunk adds
8 and then `0xFFFFFFF8` to the 32-bit offset 4, which is 4 again, so the AIFF walk does not end:
it uses up any fuel, also the fuel of `parseAiff`. -/
theorem aiffLoop_never_ends :
    loopingAiffHeader.length = 44 ∧
    aiffBody (loopingAiffHeader.drop 8) { offset := 4, sawCommonChunk := false, props := {} } =
      .done { offset := 4, sawCommonChunk := false, props := {} } ∧
    (∀ fuel, aiffLoop fuel (loopingAiffHeader.drop 8)
      { offset := 4, sawCommonChunk := false, props := {} } = .timeout) ∧
    parseContainer loopingAiffHeader {} = .timeout := by
  have hb : aiffBody (loopingAiffHeader.drop 8)
      { offset := 4, sawCommonChunk := false, props := {} } =
      .done { offset := 4, sawCommonChunk := false, props := {} } := by decide
  exact ⟨by decide, hb, aiffLoop_fixpoint _ _ (by decide) hb, by decide⟩

/-- Claim C11 (evaluation at the failing input): in `loopingAiffHeader`, which starts `'FORM'`
... `'AIFF'`, the walk only ever reads the chunk at offset 4, which is not `'COMM'`; the parse
does not fail, it does not return. -/
theorem parseContainer_aiff_without_comm :
    toUInt loopingAiffHeader 0 true = 0x464f524d ∧
    toUInt (loopingAiffHeader.drop 8) 0 true = 0x41494646 ∧
    toUInt (loopingAiffHeader.drop 8) 4 true ≠ 0x434f4d4d ∧
    (∀ fuel, aiffLoop fuel (loopingAiffHeader.drop 8)
      { offset := 4, sawCommonChunk := false, props := {} } ≠ .invalid) ∧
    parseContainer loopingAiffHeader {} ≠ .invalid := by
  have hb : aiffBody (loopingAiffHeader.drop 8)
      { offset := 4, sawCommonChunk := false, props := {} } =
      .done { offset := 4, sawCommonChunk := false, props := {} } := by decide
  refine ⟨by decide, by decide, by decide, fun fuel => ?_, by decide⟩
  rw [aiffLoop_fixpoint _ _ (by decide) hb fuel]
  exact fun h => by cases h

set_option maxRecDepth 100000 in
/-- Claim C14 (evaluation at the failing input): `aliasAiffHeader 2` and
`aliasAiffHeader 0x434f` differ in the two bytes of the `'COMM'` channel count only. The
`'JUNK'` chunk after `'COMM'` declares a size that wraps the 32-bit offset back to 12, onto the
channel-count field, which the walk then reads as a chunk id: with the channel count 2 the
parse succeeds, with the channel count `0x434f` (the letters CO) it reads `'COMM'` there and
fails. -/
theorem parseContainer_aiff_channel_count_matters :
    aliasAiffHeader 0x434f = ((aliasAiffHeader 2).set 20 0x43).set 21 0x4f ∧
    toUShort ((aliasAiffHeader 2).drop 8) 12 true = 2 ∧
    parseContainer (aliasAiffHeader 2) {} =
      Walk.done { sampleRate := 44100, bitsPerSample := 16, sampleFrames := 0x4d4d0012 } ∧
    parseContainer (aliasAiffHeader 0x434f) {} = Walk.invalid ∧
    read (shnFile 2 4 5 2 256 (aliasAiffHeader 2)) =
      .valid { version := 2, fileType := 5, channelCount := 2, sampleRate := 44100,
               bitsPerSample := 16, sampleFrames := 0x4d4d0012 } ∧
    read (shnFile 2 4 5 2 256 (aliasAiffHeader 0x434f)) = .invalid := by
  decide

/-- Claim C19 (evaluation at the failing input): in `wideWidthFile` (version 1) the first
`getUInt` call decodes the width 64 from the stream, and decoding the value with that width
shifts the 32-bit `result` by 32: the call, and `read`, have no defined result. -/
theorem getUInt_decoded_width_shift :
    versionOf wideWidthFile = 1 ∧
    getRiceGolombCode (VariableLengthInput.fresh (streamOf wideWidthFile)) uInt32CodeSize =
      .ok 64
        { file := [], buffer := streamOf wideWidthFile, bufferPosition := 4,
          bitBuffer := 0x00009000, bitsAvailable := 13 } ∧
    getRiceGolombCode
        { file := [], buffer := streamOf wideWidthFile, bufferPosition := 4,
          bitBuffer := 0x00009000, bitsAvailable := 13 } 64 = .undef ∧
    getUInt (VariableLengthInput.fresh (streamOf wideWidthFile)) 1 fileTypeCodeSize = .undef ∧
    read wideWidthFile = .undef := by
  decide

/-! ## The file object after `read` -/

theorem refill_outcome (s : VariableLengthInput) (hs : s.WellFormed) :
    (s.pendingWords = [] ∧ ∃ s', refillBitBuffer s = (false, s')) ∨
    (∃ s', refillBitBuffer s = (true, s') ∧ s'.WellFormed ∧ s'.bitsAvailable = 32 ∧
      s'.unreadBits = bitsOfWords s.pendingWords) := by
  cases hp : s.pendingWords with
  | nil => exact Or.inl ⟨rfl, _, refill_nil s hs hp⟩
  | cons w ws =>
    obtain ⟨s', h1, h2, h3, h4, h5⟩ := refill_cons s hs hp
    refine Or.inr ⟨s', h1, h5, h3, ?_⟩
    simp only [VariableLengthInput.unreadBits, h2, h3, h4, bitsOfWords]

theorem refill_false_iff (s : VariableLengthInput) (hs : s.WellFormed) :
    (refillBitBuffer s).1 = false ↔
      s.buffer.length - s.bufferPosition < 4 ∧ (readBlock s.file kBufferSize).1.length < 4 := by
  obtain ⟨h1, h2, _⟩ := hs
  simp only [kBufferSize] at h2
  by_cases c1 : (s.buffer.length + 2 ^ 32 - s.bufferPosition) % 2 ^ 32 < 4
  · by_cases c2 : (s.file.take kBufferSize).length < 4
    · simp only [refillBitBuffer, readBlock, if_pos c1, if_pos c2, true_iff]
      exact ⟨by omega, c2⟩
    · simp only [refillBitBuffer, readBlock, if_pos c1, if_neg c2, loadWord]
      constructor
      · intro h; cases h
      · intro h; exact absurd h.2 c2
  · simp only [refillBitBuffer, if_neg c1, loadWord]
    constructor
    · intro h; cases h
    · intro h; omega

theorem unreadBits_of_empty (s : VariableLengthInput) (h0 : s.bitsAvailable = 0) :
    s.unreadBits = bitsOfWords s.pendingWords := by
  simp only [VariableLengthInput.unreadBits, h0, bitsOf, List.nil_append]

theorem unaryLoop_ok_bits (fuel : Nat) : ∀ (s : VariableLengthInput) (result v : Nat)
    (s' : VariableLengthInput), s.WellFormed → 1 ≤ s.bitsAvailable →
    unaryLoop fuel s result = .ok v s' →
    s'.WellFormed ∧ ∃ q, s.unreadBits = List.replicate q false ++ true :: s'.unreadBits := by
  induction fuel with
  | zero => intro s result v s' _ _ h; simp [unaryLoop] at h
  | succ f ih =>
    intro s result v s' hs hb h
    have hle := hs.bits_le
    have c1 : ¬ (s.bitsAvailable = 0 ∨ s.bitsAvailable > 64) := by omega
    have hs1 := wellFormed_setBits s hs (s.bitsAvailable - 1) (by omega)
    have hpred := unreadBits_pred s hb
    simp only [unaryLoop, if_neg c1] at h
    by_cases c2 : s.bitBuffer &&& (1 <<< (s.bitsAvailable - 1)) ≠ 0
    · simp only [if_pos c2] at h
      rw [Res.ok.injEq] at h
      obtain ⟨_, rfl⟩ := h
      refine ⟨hs1, 0, ?_⟩
      rw [hpred, (and_one_shiftLeft_ne_zero _ _).mp c2]
      rfl
    · simp only [if_neg c2] at h
      have hbit : s.bitBuffer.testBit (s.bitsAvailable - 1) = false := by
        cases hb' : s.bitBuffer.testBit (s.bitsAvailable - 1) with
        | false => rfl
        | true => exact absurd ((and_one_shiftLeft_ne_zero _ _).mpr hb') c2
      by_cases c3 : s.bitsAvailable - 1 = 0
      · simp only [if_pos c3] at h
        rcases refill_outcome _ hs1 with ⟨_, s2, e1⟩ | ⟨s2, e1, e2, e3, e4⟩
        · rw [e1] at h
          cases h
        · rw [e1] at h
          simp only at h
          obtain ⟨w, q, hq⟩ := ih s2 _ v s' e2 (by omega) h
          refine ⟨w, q + 1, ?_⟩
          rw [hpred, hbit, List.replicate_succ, List.cons_append, ← hq, e4]
          rw [unreadBits_of_empty _ c3]
      · simp only [if_neg c3] at h
        obtain ⟨w, q, hq⟩ := ih _ _ v s' hs1 (by simp only; omega) h
        refine ⟨w, q + 1, ?_⟩
        rw [hpred, hbit, List.replicate_succ, List.cons_append, ← hq]

theorem remainderLoop_ok_length (fuel : Nat) : ∀ (s : VariableLengthInput) (k : Int)
    (result v : Nat) (s' : VariableLengthInput), s.WellFormed → 0 ≤ k →
    remainderLoop fuel s k result = .ok v s' →
    (s.unreadBits.length : Int) = k + s'.unreadBits.length := by
  induction fuel with
  | zero => intro s k result v s' _ _ h; simp [remainderLoop] at h
  | succ f ih =>
    intro s k result v s' hs hk h
    rw [remainderLoop] at h
    split at h
    · rw [Res.ok.injEq] at h
      obtain ⟨_, rfl⟩ := h
      omega
    · split at h
      · split at h
        · cases h
        · rw [Res.ok.injEq] at h
          obtain ⟨_, rfl⟩ := h
          simp only [VariableLengthInput.unreadBits, VariableLengthInput.pendingWords,
            List.length_append, bitsOf_length]
          push_cast
          omega
      · split at h
        · cases h
        · rcases refill_outcome s hs with ⟨_, s2, e1⟩ | ⟨s2, e1, e2, e3, e4⟩
          · rw [e1] at h
            cases h
          · rw [e1] at h
            simp only at h
            have hrec := ih s2 _ _ v s' e2 (by omega) h
            have hl : s.unreadBits.length = s.bitsAvailable + s2.unreadBits.length := by
              rw [e4]
              simp only [VariableLengthInput.unreadBits, List.length_append, bitsOf_length]
            rw [hl]
            push_cast
            omega

/-- A call that returns true has found the whole code in the unread bits: a unary terminator
followed by at least `k` bits. -/
theorem getRiceGolombCode_ok_bits (s : VariableLengthInput) (k v : Int)
    (s' : VariableLengthInput) (hs : s.WellFormed) (hk : 0 ≤ k)
    (h : getRiceGolombCode s k = .ok v s') :
    ∃ q tail, s.unreadBits = List.replicate q false ++ true :: tail ∧
      (tail.length : Int) = k + s'.unreadBits.length := by
  have hstart : (∃ s1, (if s.bitsAvailable = 0 then refillBitBuffer s else (true, s)) = (true, s1) ∧
      s1.WellFormed ∧ 1 ≤ s1.bitsAvailable ∧ s1.unreadBits = s.unreadBits) ∨
      (∃ s1, (if s.bitsAvailable = 0 then refillBitBuffer s else (true, s)) = (false, s1)) := by
    by_cases h0 : s.bitsAvailable = 0
    · rw [if_pos h0]
      rcases refill_outcome s hs with ⟨_, s2, e1⟩ | ⟨s2, e1, e2, e3, e4⟩
      · exact Or.inr ⟨s2, e1⟩
      · exact Or.inl ⟨s2, e1, e2, by omega, by rw [e4, unreadBits_of_empty s h0]⟩
    · rw [if_neg h0]
      exact Or.inl ⟨s, rfl, hs, by omega, rfl⟩
  rcases hstart with ⟨s1, e1, e2, e3, e4⟩ | ⟨s1, e1⟩
  · simp only [getRiceGolombCode, e1] at h
    cases hu : unaryLoop (unaryFuel s1) s1 0 with
    | ok q s2 =>
      rw [hu] at h
      simp only at h
      obtain ⟨a, ha, _⟩ := (Res.map_eq_ok _ _ _ _).mp h
      obtain ⟨w2, n, hn⟩ := unaryLoop_ok_bits (unaryFuel s1) s1 0 q s2 e2 e3 hu
      have hlen := remainderLoop_ok_length 3 s2 k q a s' w2 hk ha
      exact ⟨n, s2.unreadBits, by rw [← e4, hn], hlen⟩
    | fail s2 => rw [hu] at h; cases h
    | undef => rw [hu] at h; cases h
    | timeout => rw [hu] at h; cases h
  · simp only [getRiceGolombCode, e1] at h
    cases h

theorem unary_run_unique (a : Nat) : ∀ (b : Nat) (t1 t2 : List Bool),
    List.replicate a false ++ true :: t1 = List.replicate b false ++ true :: t2 →
    a = b ∧ t1 = t2 := by
  induction a with
  | zero =>
    intro b t1 t2 h
    cases b with
    | zero =>
      simp only [List.replicate, List.nil_append, List.cons.injEq, true_and] at h
      exact ⟨rfl, h⟩
    | succ b => simp [List.replicate] at h
  | succ a ih =>
    intro b t1 t2 h
    cases b with
    | zero => simp [List.replicate] at h
    | succ b =>
      simp only [List.replicate, List.cons_append, List.cons.injEq, true_and] at h
      obtain ⟨h1, h2⟩ := ih b t1 t2 h
      exact ⟨by omega, h2⟩

theorem readStreamInfo_fail_of_first (s : VariableLengthInput) (version : Nat)
    (props : PropertyValues) (s' : VariableLengthInput)
    (h : getUInt s version fileTypeCodeSize = .fail s') :
    readStreamInfo s version props = .fail s' := by
  simp only [readStreamInfo, h, Res.bind]

theorem getRiceGolombCode_of_empty (s : VariableLengthInput) (w : Int) (hs : s.WellFormed)
    (h0 : s.bitsAvailable = 0) (hp : s.pendingWords = []) :
    getRiceGolombCode s w = .fail { s with file := s.file.drop kBufferSize } := by
  have hr := refill_nil s hs hp
  unfold getRiceGolombCode
  rw [if_pos h0, hr]

theorem getUInt_of_empty (s : VariableLengthInput) (version k : Int) (hv : version > 0)
    (hs : s.WellFormed) (h0 : s.bitsAvailable = 0) (hp : s.pendingWords = []) :
    getUInt s version k = .fail { s with file := s.file.drop kBufferSize } := by
  unfold getUInt
  rw [if_pos hv, getRiceGolombCode_of_empty s _ hs h0 hp]

theorem getUInt_fresh_short (stream : List Byte) (version k : Int) (hv : version > 0)
    (hlen : stream.length < 4) :
    ∃ s', getUInt (VariableLengthInput.fresh stream) version k = .fail s' := by
  have hp : (VariableLengthInput.fresh stream).pendingWords = [] := by
    show wordsOf (([] : List Byte).drop 0) ++ wordsOf stream = []
    rw [wordsOf_short hlen]
    rfl
  exact ⟨_, getUInt_of_empty _ version k hv (wellFormed_fresh stream) rfl hp⟩

/-- Exhaustion with a width from 0 to 31: from every state the reader can be in between calls,
`getRiceGolombCode` returns true or false; it returns false whenever the unread bits (those
held in the bit buffer and those of the complete 32-bit words still to come) do not contain the
unary terminator followed by `k` further bits; a refill returns false exactly when fewer than 4
buffered bytes are left and the next block read has fewer than 4 bytes; a failed call makes
`getUInt` return false; and `read` marks the file invalid when its first `getUInt` call, or
later any part of the stream-level fields or of the verbatim section, returns false, in
particular when the stream is shorter than one 32-bit word. -/
theorem getRiceGolombCode_exhausted (s : VariableLengthInput) (k : Int) (hs : s.WellFormed)
    (hk0 : 0 ≤ k) (hk : k ≤ 31) :
    (getRiceGolombCode s k).Settled ∧
    ((∀ q tail, s.unreadBits = List.replicate q false ++ true :: tail → (tail.length : Int) < k) →
      ∃ s', getRiceGolombCode s k = .fail s') ∧
    ((refillBitBuffer s).1 = false ↔
      s.buffer.length - s.bufferPosition < 4 ∧ (readBlock s.file kBufferSize).1.length < 4) ∧
    (∀ (version : Int) (s' : VariableLengthInput), version ≤ 0 →
      getRiceGolombCode s k = .fail s' → getUInt s version k = .fail s') ∧
    (∀ (version : Int) (s' : VariableLengthInput), version > 0 →
      getRiceGolombCode s uInt32CodeSize = .fail s' → getUInt s version k = .fail s') ∧
    (∀ (version k1 : Int) (s1 s' : VariableLengthInput), version > 0 →
      getRiceGolombCode s uInt32CodeSize = .ok k1 s1 → getRiceGolombCode s1 k1 = .fail s' →
      getUInt s version k = .fail s') ∧
    (∀ file : List Byte, file.take 4 = [0x61, 0x6a, 0x6b, 0x67] →
      1 ≤ versionOf file ∧ versionOf file ≤ 3 →
      ((streamOf file).length < 4 → read file = .invalid) ∧
      (∀ s', getUInt (VariableLengthInput.fresh (streamOf file)) (versionOf file)
          fileTypeCodeSize = .fail s' → read file = .invalid) ∧
      (∀ s', readStreamInfo (VariableLengthInput.fresh (streamOf file)) (versionOf file)
          { version := (versionOf file : Int) } = .fail s' → read file = .invalid) ∧
      (∀ props s1 s', readStreamInfo (VariableLengthInput.fresh (streamOf file)) (versionOf file)
          { version := (versionOf file : Int) } = .ok props s1 →
        readVerbatim s1 = .fail s' → read file = .invalid)) := by
  have htotal := getRiceGolombCode_total s k hs hk0 hk
  refine ⟨htotal, ?_, refill_false_iff s hs, ?_, ?_, ?_, ?_⟩
  · intro hex
    rcases htotal with ⟨v, s', e, _⟩ | ⟨s', e, _⟩
    · obtain ⟨q, tail, h1, h2⟩ := getRiceGolombCode_ok_bits s k v s' hs hk0 e
      have := hex q tail h1
      omega
    · exact ⟨s', e⟩
  · intro version s' hv h
    have c : ¬ version > 0 := by omega
    simp only [getUInt, if_neg c, h, Res.map]
  · intro version s' hv h
    simp only [getUInt, if_pos hv, h]
  · intro version k1 s1 s' hv h1 h2
    simp only [getUInt, if_pos hv, h1, h2, Res.map]
  · intro file hmagic hsup
    have hfirst : ∀ s', getUInt (VariableLengthInput.fresh (streamOf file)) (versionOf file)
        fileTypeCodeSize = .fail s' → read file = .invalid := by
      intro s' h
      rw [read_eq file hmagic hsup, readStreamInfo_fail_of_first _ _ _ s' h]
    refine ⟨fun hlen => ?_, hfirst, fun s' h => ?_, fun props s1 s' h1 h2 => ?_⟩
    · obtain ⟨s', h⟩ := getUInt_fresh_short (streamOf file) (versionOf file) fileTypeCodeSize
        (by omega) hlen
      exact hfirst s' h
    · rw [read_eq file hmagic hsup, h]
    · rw [read_eq file hmagic hsup, h1]
      simp only [readFromVerbatim, h2]

theorem getRiceGolombCode_exhausted_witness :
    (VariableLengthInput.fresh [0, 0, 0, 1, 0, 0, 0]).WellFormed ∧ (0 : Int) ≤ 2 ∧
    (2 : Int) ≤ 31 ∧
    (VariableLengthInput.fresh [0, 0, 0, 1, 0, 0, 0]).unreadBits =
      List.replicate 31 false ++ [true] ∧
    ∃ s', getRiceGolombCode (VariableLengthInput.fresh [0, 0, 0, 1, 0, 0, 0]) 2 = .fail s' := by
  have hbits : (VariableLengthInput.fresh [0, 0, 0, 1, 0, 0, 0]).unreadBits =
      List.replicate 31 false ++ [true] := by
    rw [unreadBits_fresh]
    decide
  refine ⟨wellFormed_fresh _, by decide, by decide, hbits, ?_⟩
  refine (getRiceGolombCode_exhausted (VariableLengthInput.fresh [0, 0, 0, 1, 0, 0, 0]) 2
    (wellFormed_fresh _) (by decide) (by decide)).2.1 ?_
  intro q tail h
  rw [hbits] at h
  obtain ⟨_, h2⟩ := unary_run_unique 31 q [] tail h
  rw [← h2]
  decide

/-- The width 70 on a stream of two words: the terminator is the first bit and only 63 bits
follow it, so the remainder bits lie beyond the stream; the call does not return false but
shifts the 32-bit result by 32 after the second word has been loaded. -/
theorem getRiceGolombCode_wide_exhausted :
    bitsOfWords (wordsOf [0x80, 0, 0, 0, 0, 0, 0, 0]) = true :: List.replicate 63 false ∧
    getRiceGolombCode (VariableLengthInput.fresh [0x80, 0, 0, 0, 0, 0, 0, 0]) 70 = .undef := by
  decide

/-! ## Widths of 32 and more decoded from the stream -/

/-- Claim C1 (evaluation at the failing input): version 1, chosen width 48, value 0. The
reference encoder gives the words `0x00090000 0x00000000`; `getUInt` decodes the width 48, finds
the terminator of the value's code with 16 bits left in the first word, takes them, loads the
second word and has to take its 32 bits with `result << 32` on the 32-bit `result`. The call
does not return true with the value 0, and `read` on a file that starts with this stream has no
defined result. -/
theorem getUInt_roundtrip_width_48 :
    packBits (encodeUInt 1 0 48 0) = [0x00, 0x09, 0x00, 0x00, 0, 0, 0, 0] ∧
    getRiceGolombCode (VariableLengthInput.fresh (packBits (encodeUInt 1 0 48 0)))
        uInt32CodeSize =
      .ok 48
        { file := [], buffer := packBits (encodeUInt 1 0 48 0), bufferPosition := 4,
          bitBuffer := 0x00090000, bitsAvailable := 17 } ∧
    getUInt (VariableLengthInput.fresh (packBits (encodeUInt 1 0 48 0))) 1 0 = .undef ∧
    read ([0x61, 0x6a, 0x6b, 0x67, 1] ++ packBits (encodeUInt 1 0 48 0)) = .undef := by
  decide

/-- Claim C13 (evaluation at the failing input): in `truncatedWideFile` (version 2) the first
`getUInt` call of `read` decodes the width 52; the unread bits are then the terminator of the
value's code and 47 further bits, so the 52 remainder bits lie beyond the last word of the
stream. The call does not return false: after the 15 bits of the first word it loads the second
word and shifts the 32-bit `result` by 32, and neither `getUInt` nor `read` has a defined
result. -/
theorem read_truncated_wide_width :
    versionOf truncatedWideFile = 2 ∧
    getRiceGolombCode (VariableLengthInput.fresh (streamOf truncatedWideFile)) uInt32CodeSize =
      .ok 52
        { file := [], buffer := streamOf truncatedWideFile, bufferPosition := 4,
          bitBuffer := 0x00048000, bitsAvailable := 16 } ∧
    ({ file := [], buffer := streamOf truncatedWideFile, bufferPosition := 4,
       bitBuffer := 0x00048000, bitsAvailable := 16 } : VariableLengthInput).unreadBits =
      true :: List.replicate 47 false ∧
    getRiceGolombCode
        { file := [], buffer := streamOf truncatedWideFile, bufferPosition := 4,
          bitBuffer := 0x00048000, bitsAvailable := 16 } 52 = .undef ∧
    getUInt (VariableLengthInput.fresh (streamOf truncatedWideFile)) 2 fileTypeCodeSize =
      .undef ∧
    read truncatedWideFile = .undef := by
  decide

/-! ## Skipping chunks in the AIFF walk -/

theorem toNumber_append (pre rest : List Byte) (n j len : Nat) (h : pre.length = n) :
    toNumber (pre ++ rest) (n + j) len true = toNumber rest j len true := by
  subst h
  simp only [toNumber, List.drop_append]

theorem length_eq_four (l : List Byte) (h : l.length = 4) : ∃ a b c d, l = [a, b, c, d] := by
  rcases l with _ | ⟨a, _ | ⟨b, _ | ⟨c, _ | ⟨d, _ | ⟨e, t⟩⟩⟩⟩⟩
  · simp at h
  · simp at h
  · simp at h
  · simp at h
  · exact ⟨a, b, c, d, rfl⟩
  · simp at h

/-- The pass over a chunk that is not `'COMM'`, when the skip does not wrap the 32-bit offset:
the offset advances by 8 and the declared size rounded up to even. -/
theorem aiffBody_skip_padded (cd : List Byte) (st : AiffWalk)
    (hid : toUInt cd st.offset true ≠ 0x434f4d4d)
    (ho : st.offset + 8 + toUInt cd (st.offset + 4) true +
      toUInt cd (st.offset + 4) true % 2 < 2 ^ 32) :
    aiffBody cd st =
      .done
        { st with
          offset := st.offset + 8 + toUInt cd (st.offset + 4) true +
            toUInt cd (st.offset + 4) true % 2 } := by
  rw [aiffBody_skip cd st (by omega) hid]
  have e : (st.offset + 8 +
      (toUInt cd (st.offset + 4) true + (toUInt cd (st.offset + 4) true &&& 1)) % 2 ^ 32) %
        2 ^ 32 = st.offset + 8 + toUInt cd (st.offset + 4) true +
        toUInt cd (st.offset + 4) true % 2 := by
    rw [Nat.and_one_is_mod]
    omega
  rw [e]

/-- C17: in the AIFF chunk walk a chunk whose id is not `'COMM'` is skipped by its declared
size rounded up to even. For every pass over such a chunk whose skip does not wrap the offset,
the next chunk header is read `8 + s + s % 2` bytes after the start of the chunk; and for every
header in which such a chunk, with its payload and pad byte, precedes the `'COMM'` chunk, the
first pass moves from offset 4 to `4 + (8 + s + s % 2)`, where the `'COMM'` id is read, and the
record reported is the one of that `'COMM'` chunk. -/
theorem parseContainer_aiff_skips_chunk (id payload : List Byte) (declared channels sampleFrames
    bitsPerSample exponent mantissa ssndSize : Nat) (props : PropertyValues)
    (hid : id.length = 4) (hne : beValue id ≠ 0x434f4d4d)
    (hpay : payload.length = declared + declared % 2)
    (hlen : payload.length + ssndSize + 62 < 2 ^ 32)
    (hsf : sampleFrames < 2 ^ 32) (hbps : bitsPerSample < 2 ^ 16) (hexp : exponent < 2 ^ 16)
    (hman : mantissa < 2 ^ 64)
    (he : -63 ≤ toInt16 exponent - 16383 - 63 ∧ toInt16 exponent - 16383 - 63 ≤ 63)
    (hs : 8 ≤ ssndSize) :
    (∀ (cd : List Byte) (st : AiffWalk), toUInt cd st.offset true ≠ 0x434f4d4d →
      st.offset + 8 + toUInt cd (st.offset + 4) true +
        toUInt cd (st.offset + 4) true % 2 < 2 ^ 32 →
      aiffBody cd st =
        .done
          { st with
            offset := st.offset + 8 + toUInt cd (st.offset + 4) true +
              toUInt cd (st.offset + 4) true % 2 }) ∧
    (aiffHeaderWithChunk id declared payload channels sampleFrames bitsPerSample exponent
      mantissa ssndSize).length = 62 + payload.length ∧
    toUInt ((aiffHeaderWithChunk id declared payload channels sampleFrames bitsPerSample
      exponent mantissa ssndSize).drop 8) (4 + 4) true = declared ∧
    aiffBody ((aiffHeaderWithChunk id declared payload channels sampleFrames bitsPerSample
        exponent mantissa ssndSize).drop 8)
        { offset := 4, sawCommonChunk := false, props := props } =
      .done { offset := 4 + (8 + declared + declared % 2), sawCommonChunk := false,
              props := props } ∧
    toUInt ((aiffHeaderWithChunk id declared payload channels sampleFrames bitsPerSample
      exponent mantissa ssndSize).drop 8) (4 + (8 + declared + declared % 2)) true =
        0x434f4d4d ∧
    parseContainer (aiffHeaderWithChunk id declared payload channels sampleFrames bitsPerSample
        exponent mantissa ssndSize) props =
      Walk.done { props with
        sampleFrames := sampleFrames,
        bitsPerSample := (bitsPerSample : Int),
        sampleRate := extendedToInt (toInt16 exponent - 16383 - 63) mantissa } := by
  obtain ⟨i0, i1, i2, i3, rfl⟩ := length_eq_four id hid
  obtain ⟨P, hP⟩ : ∃ P, P = payload.length := ⟨_, rfl⟩
  obtain ⟨hdr, hhdr⟩ : ∃ hdr, hdr = aiffHeaderWithChunk [i0, i1, i2, i3] declared payload
    channels sampleFrames bitsPerSample exponent mantissa ssndSize := ⟨_, rfl⟩
  obtain ⟨cd, hcd⟩ : ∃ cd, cd = hdr.drop 8 := ⟨_, rfl⟩
  obtain ⟨B, hB⟩ : ∃ B, B = commChunk 18 channels sampleFrames bitsPerSample exponent mantissa ++
    [0x53, 0x53, 0x4e, 0x44] ++ be32 ssndSize ++ be32 0 ++ be32 0 := ⟨_, rfl⟩
  have hBlen : B.length = 42 := by rw [hB]; rfl
  have hhdr1 : hdr = [0x46, 0x4f, 0x52, 0x4d] ++ be32 (46 + 8 + payload.length) ++
      (([0x41, 0x49, 0x46, 0x46] ++ [i0, i1, i2, i3] ++ be32 declared ++ payload) ++ B) := by
    rw [hhdr, hB]
    simp only [aiffHeaderWithChunk, List.append_assoc]
  have hl : hdr.length = 62 + payload.length := by
    rw [hhdr1]
    simp only [List.length_append, hBlen, be32, List.length_cons, List.length_nil]
    omega
  have hcd1 : cd = ([0x41, 0x49, 0x46, 0x46] ++ [i0, i1, i2, i3] ++ be32 declared ++ payload) ++
      B := by
    rw [hcd, hhdr1]
    simp only [be32, List.cons_append, List.nil_append, List.drop_succ_cons, List.drop_zero]
  have hprelen : ([0x41, 0x49, 0x46, 0x46] ++ [i0, i1, i2, i3] ++ be32 declared ++
      payload).length = 12 + P := by
    simp only [List.length_append, be32, List.length_cons, List.length_nil, hP]
  have hcdlen : cd.length = P + 54 := by
    rw [hcd, List.length_drop, hl, hP]
    omega
  have hdecl : declared < 2 ^ 32 := by omega
  -- the reads in front of the payload
  have hcd2 : cd = 0x41 :: 0x49 :: 0x46 :: 0x46 :: i0 :: i1 :: i2 :: i3 ::
      (be32 declared ++ (payload ++ B)) := by
    rw [hcd1]
    simp only [List.cons_append, List.nil_append, List.append_assoc]
  have e0 : toUInt cd 0 true = beValue [0x41, 0x49, 0x46, 0x46] := by rw [hcd2]; rfl
  have e1 : toUInt cd 4 true = beValue [i0, i1, i2, i3] := by rw [hcd2]; rfl
  have e2 : toUInt cd 8 true = beValue (be32 declared) := by
    rw [hcd2]
    simp only [be32, List.cons_append, List.nil_append]
    rfl
  rw [show beValue [0x41, 0x49, 0x46, 0x46] = 0x41494646 by decide] at e0
  rw [beValue_be32 _ hdecl] at e2
  -- the reads behind the payload
  have rd : ∀ j len, toNumber cd (12 + P + j) len true = toNumber B j len true := by
    intro j len
    rw [hcd1]
    exact toNumber_append _ B (12 + P) j len hprelen
  have hB1 := hB
  simp only [commChunk, be64, be32, be16, List.cons_append, List.nil_append] at hB1
  have r0 : toUInt cd (12 + P) true = beValue [0x43, 0x4f, 0x4d, 0x4d] := by
    have := rd 0 4
    rw [Nat.add_zero] at this
    rw [toUInt, this, hB1]
    rfl
  have r1 : toUInt cd (12 + P + 4) true = beValue (be32 18) := by
    rw [toUInt, rd 4 4, hB1]; rfl
  have r3 : toUInt cd (12 + P + 10) true = beValue (be32 sampleFrames) := by
    rw [toUInt, rd 10 4, hB1]; rfl
  have r4 : toUShort cd (12 + P + 14) true = beValue (be16 bitsPerSample) := by
    rw [toUShort, rd 14 2, hB1]; rfl
  have r5 : toUShort cd (12 + P + 16) true = beValue (be16 exponent) := by
    rw [toUShort, rd 16 2, hB1]; rfl
  have r6 : toULongLong cd (12 + P + 18) true = beValue (be64 mantissa) := by
    rw [toULongLong, rd 18 8, hB1]; rfl
  have r7 : toUInt cd (12 + P + 26) true = beValue [0x53, 0x53, 0x4e, 0x44] := by
    rw [toUInt, rd 26 4, hB1]; rfl
  have r8 : toUInt cd (12 + P + 26 + 4) true = beValue (be32 ssndSize) := by
    rw [show 12 + P + 26 + 4 = 12 + P + 30 by omega, toUInt, rd 30 4, hB1]; rfl
  rw [show beValue [0x43, 0x4f, 0x4d, 0x4d] = 0x434f4d4d by decide] at r0
  rw [show beValue (be32 18) = 18 by decide] at r1
  rw [show beValue [0x53, 0x53, 0x4e, 0x44] = 0x53534e44 by decide] at r7
  rw [beValue_be32 _ hsf] at r3
  rw [beValue_be16 _ hbps] at r4
  rw [beValue_be16 _ hexp] at r5
  rw [beValue_be64 _ hman] at r6
  rw [beValue_be32 _ (by omega)] at r8
  -- the three passes of the loop
  have hoff : 4 + (8 + declared + declared % 2) = 12 + P := by omega
  have body1 : aiffBody cd { offset := 4, sawCommonChunk := false, props := props } =
      .done { offset := 12 + P, sawCommonChunk := false, props := props } := by
    have hne1 : toUInt cd ({ offset := 4, sawCommonChunk := false, props := props } :
        AiffWalk).offset true ≠ 0x434f4d4d := by
      show toUInt cd 4 true ≠ 0x434f4d4d
      rw [e1]; exact hne
    rw [aiffBody_skip_padded cd _ hne1 (by
      show 4 + 8 + toUInt cd (4 + 4) true + toUInt cd (4 + 4) true % 2 < 2 ^ 32
      rw [e2]; omega)]
    show Walk.done
      ({ offset := 4 + 8 + toUInt cd (4 + 4) true + toUInt cd (4 + 4) true % 2,
         sawCommonChunk := false, props := props } : AiffWalk) = _
    rw [e2, show 4 + 8 + declared + declared % 2 = 12 + P by omega]
  have body2 : aiffBody cd { offset := 12 + P, sawCommonChunk := false, props := props } =
      .done { offset := 12 + P + 26, sawCommonChunk := true,
              props := { props with
                sampleFrames := sampleFrames,
                bitsPerSample := (bitsPerSample : Int),
                sampleRate := extendedToInt (toInt16 exponent - 16383 - 63) mantissa } } := by
    have c18 : ¬ ((18 + (18 &&& 1)) % 2 ^ 32 < 18) := by decide
    have cexp : ¬ (toInt16 exponent - 16383 - 63 < -63 ∨ toInt16 exponent - 16383 - 63 > 63) := by
      omega
    rw [aiffBody_comm cd _ (by show 12 + P + 26 < 2 ^ 32; omega) r0]
    simp only [r1, r3, r4, r5, r6, if_neg c18, if_neg cexp]
  have body3 : ∀ p : PropertyValues,
      aiffBody cd { offset := 12 + P + 26, sawCommonChunk := true, props := p } =
        .done { offset := 12 + P + 26 + 8 + ssndSize + ssndSize % 2, sawCommonChunk := true,
                props := p } := by
    intro p
    have hne3 : toUInt cd (12 + P + 26) true ≠ 0x434f4d4d := by rw [r7]; decide
    rw [aiffBody_skip_padded cd _ hne3 (by
      show 12 + P + 26 + 8 + toUInt cd (12 + P + 26 + 4) true +
        toUInt cd (12 + P + 26 + 4) true % 2 < 2 ^ 32
      rw [r8]; omega)]
    show Walk.done
      ({ offset := 12 + P + 26 + 8 + toUInt cd (12 + P + 26 + 4) true +
                     toUInt cd (12 + P + 26 + 4) true % 2,
         sawCommonChunk := true, props := p } : AiffWalk) = _
    rw [r8]
  -- assembling
  have h0 : toUInt hdr 0 true = 0x464f524d := by
    have : toUInt hdr 0 true = beValue [0x46, 0x4f, 0x52, 0x4d] := by
      rw [hhdr1]
      simp only [List.cons_append, List.nil_append]
      rfl
    rw [this]; decide
  have hdrop : (hdr.drop 8).take ((hdr.length + 2 ^ 32 - 8) % 2 ^ 32) = cd := by
    rw [hcd]; exact chunkData_eq hdr (by omega) (by omega)
  rw [← hhdr, ← hcd]
  refine ⟨fun cd st h1 h2 => aiffBody_skip_padded cd st h1 h2, hl, e2, ?_, ?_, ?_⟩
  · rw [hoff]; exact body1
  · rw [hoff]; exact r0
  · have c2 : ¬ ((1095321158 : Nat) ≠ 1095321158 ∧ (1095321158 : Nat) ≠ 1095321155) := by decide
    have hfuel : cd.length + 1 = P + 51 + 1 + 1 + 1 + 1 := by omega
    simp only [parseContainer, h0, hdrop, parseAiff, e0]
    rw [if_pos True.intro, if_neg c2, hfuel,
      aiffLoop_step _ cd _ _ (by rw [hcdlen]; simp only; omega) body1,
      aiffLoop_step _ cd _ _ (by rw [hcdlen]; simp only; omega) body2,
      aiffLoop_step _ cd _ _ (by rw [hcdlen]; simp only; omega) (body3 _),
      aiffLoop_exit _ cd _ (by rw [hcdlen]; simp only; omega)]
    rfl

/-- Witness for `parseContainer_aiff_skips_chunk`: a `'JUNK'` chunk of declared size 3 (three
payload bytes and the pad byte) in front of the `'COMM'` chunk of a 44.1 kHz, 16-bit stereo
recording; the `'COMM'` id is read at offset 16. -/
theorem parseContainer_aiff_skips_chunk_witness :
    aiffBody ((aiffHeaderWithChunk [0x4a, 0x55, 0x4e, 0x4b] 3 [1, 2, 3, 0] 2 44100 16 16398
        (44100 * 2 ^ 48) 176408).drop 8)
        { offset := 4, sawCommonChunk := false, props := {} } =
      .done { offset := 4 + (8 + 3 + 3 % 2), sawCommonChunk := false, props := {} } ∧
    extendedToInt (toInt16 16398 - 16383 - 63) (44100 * 2 ^ 48) = 44100 ∧
    parseContainer (aiffHeaderWithChunk [0x4a, 0x55, 0x4e, 0x4b] 3 [1, 2, 3, 0] 2 44100 16 16398
        (44100 * 2 ^ 48) 176408) {} =
      Walk.done { sampleFrames := 44100, bitsPerSample := 16,
                  sampleRate := extendedToInt (toInt16 16398 - 16383 - 63) (44100 * 2 ^ 48) } :=
  ⟨(parseContainer_aiff_skips_chunk [0x4a, 0x55, 0x4e, 0x4b] [1, 2, 3, 0] 3 2 44100 16 16398
      (44100 * 2 ^ 48) 176408 {} (by decide) (by decide) (by decide) (by decide) (by decide)
      (by decide) (by decide) (by decide) (by decide) (by decide)).2.2.2.1,
   by decide,
   (parseContainer_aiff_skips_chunk [0x4a, 0x55, 0x4e, 0x4b] [1, 2, 3, 0] 3 2 44100 16 16398
      (44100 * 2 ^ 48) 176408 {} (by decide) (by decide) (by decide) (by decide) (by decide)
      (by decide) (by decide) (by decide) (by decide) (by decide)).2.2.2.2.2⟩

end SHN
